import Mathlib

/-!
Verification of the reverse-mode autodiff engine of this repository
(`step22.py` is the authoritative core: `Var`, `Function`, the generation-ordered
backward scheduler, and the elementary operation library).

Shallow embedding choices:
* A graph is an arena (`St`) of nodes and operations addressed by list indices,
  mirroring the Python object graph; mutation becomes explicit state passing.
* Numeric payloads are `ℚ` (the numpy arrays in the repository's drivers are
  scalars wherever the claims speak; numpy itself is an external collaborator
  per the spec, so elementwise arithmetic is rational arithmetic).
* Fallible steps (`AttributeError` from sorting a worklist containing `None`,
  `TypeError` from arithmetic on `None` gradients) return `Except Err`.
* `Config.enable_backprop` is the explicit boolean argument `bp`.
-/

namespace DL

abbrev NodeId := Nat
abbrev FuncId := Nat

/-- Python exception classes observable through the embedded engine. -/
inductive Err where
  | typeError
  | attributeError
  | outOfFuel
  deriving DecidableEq

/-- The concrete `Function` subclasses of `step22.py`:
`Add`, `Mul`, `Neg`, `Sub`, `Div`, `Pow(c)` (the exponent `c` is an immutable
construction parameter; the repository only ever uses integer exponents). -/
inductive FKind where
  | add
  | mul
  | neg
  | sub
  | div
  | pow (c : Int)
  deriving DecidableEq

/-- `Var.__init__` (step22.py lines 12-21): `data`, `grad = None`,
`creator = None`, `generation = 0`.  The `name` label plays no role in any
claim and is omitted. -/
structure Node where
  data : ℚ
  grad : Option ℚ := none
  creator : Option FuncId := none
  generation : Nat := 0
  deriving DecidableEq

/-- A recorded `Function` instance: its class, `self.inputs`, `self.outputs`
(weak references, i.e. plain indices into the arena) and `self.generation`. -/
structure Func where
  kind : FKind
  inputs : List NodeId
  outputs : List NodeId
  generation : Nat
  deriving DecidableEq

/-- The heap of all `Var` and recorded `Function` objects. -/
structure St where
  nodes : List Node
  funcs : List Func
  deriving DecidableEq

def stEmpty : St := { nodes := [], funcs := [] }

def dfltNode : Node := { data := 0 }

def dfltFunc : Func := { kind := .add, inputs := [], outputs := [], generation := 0 }

def nodeAt (st : St) (i : NodeId) : Node := st.nodes.getD i dfltNode

def funcAt (st : St) (f : FuncId) : Func := st.funcs.getD f dfltFunc

def setNode (st : St) (i : NodeId) (n : Node) : St :=
  { st with nodes := st.nodes.set i n }

/-- Integer power on rationals, the embedding of numpy `x ** c` for the
integer exponents the repository uses. -/
def qpow (x : ℚ) (c : Int) : ℚ :=
  if 0 ≤ c then x ^ c.toNat else (x ^ (-c).toNat)⁻¹

/-- The `forward` rules of the operation library (step22.py lines 153-254).
Every concrete operation takes one or two arguments and returns one value; the
catch-all branch is never reached by the dispatch functions below, which always
pass the matching arity. -/
def FKind.forward : FKind → List ℚ → ℚ
  | .add, [x0, x1] => x0 + x1
  | .mul, [x0, x1] => x0 * x1
  | .neg, [x] => -x
  | .sub, [x0, x1] => x0 - x1
  | .div, [x0, x1] => x0 / x1
  | .pow c, [x] => qpow x c
  | _, _ => 0

/-- The `backward` rules of the operation library.  The incoming output
gradients are `Option ℚ` because `Var.grad` can be `None` in Python:
`Add.backward` returns `gy, gy` without touching `gy`, so an absent gradient
passes through unchanged, while every other rule performs arithmetic on `gy`
and raises `TypeError` when it is `None`.  `Mul`, `Div` and `Pow` read the
stored input *values* (`self.inputs[i].data`), passed here as `xs`. -/
def FKind.backwardRule : FKind → List (Option ℚ) → List ℚ → Except Err (List (Option ℚ))
  | .add, [gy], _ => .ok [gy, gy]
  | .mul, [some gy], [x0, x1] => .ok [some (gy * x1), some (gy * x0)]
  | .mul, [none], _ => .error .typeError
  | .neg, [some gy], _ => .ok [some (-gy)]
  | .neg, [none], _ => .error .typeError
  | .sub, [some gy], _ => .ok [some gy, some (-gy)]
  | .sub, [none], _ => .error .typeError
  | .div, [some gy], [x0, x1] => .ok [some (gy / x1), some (gy * (-x0 / x1 ^ (2 : Nat)))]
  | .div, [none], _ => .error .typeError
  | .pow c, [some gy], [x] => .ok [some ((c : ℚ) * qpow x (c - 1) * gy)]
  | .pow _, [none], _ => .error .typeError
  | _, _, _ => .error .typeError

/-- `max([x.generation for x in inputs])` (step22.py line 138).  Python's
`max` on a nonempty list of naturals agrees with `foldl max 0`. -/
def genMax (st : St) (ids : List NodeId) : Nat :=
  (ids.map fun i => (nodeAt st i).generation).foldl max 0

/-- `Var(data)`: allocate a fresh leaf node (`grad = None`, `creator = None`,
`generation = 0`) and return its index. -/
def newLeaf (v : ℚ) (st : St) : St × NodeId :=
  ({ st with nodes := st.nodes ++ [{ data := v }] }, st.nodes.length)

/-- `Function.__call__` (step22.py lines 128-144), specialized to the single
output every concrete operation in the repository produces.  `bp` is
`Config.enable_backprop`: when true the call records the graph (sets
`self.generation = max(input generations)`, wires `output.set_creator(self)`
which makes the output's generation `self.generation + 1`, and stores
`self.inputs` / weak `self.outputs`); when false the output is a detached
leaf-like node and the `Function` object is never retained. -/
def applyF (bp : Bool) (k : FKind) (args : List NodeId) (st : St) : St × NodeId :=
  let y := k.forward (args.map fun i => (nodeAt st i).data)
  let nid := st.nodes.length
  if bp then
    let gen := genMax st args
    let fid := st.funcs.length
    ({ nodes := st.nodes ++
          [{ data := y, grad := none, creator := some fid, generation := gen + 1 }],
       funcs := st.funcs ++
          [{ kind := k, inputs := args, outputs := [nid], generation := gen }] }, nid)
  else
    ({ st with nodes := st.nodes ++ [{ data := y }] }, nid)

/-- `add(x0, x1)` on two existing nodes. -/
def addF (bp : Bool) (x0 x1 : NodeId) (st : St) : St × NodeId :=
  applyF bp .add [x0, x1] st

/-- `mul(x0, x1)` on two existing nodes. -/
def mulF (bp : Bool) (x0 x1 : NodeId) (st : St) : St × NodeId :=
  applyF bp .mul [x0, x1] st

/-- `neg(x)` on an existing node. -/
def negF (bp : Bool) (x : NodeId) (st : St) : St × NodeId :=
  applyF bp .neg [x] st

/-- `sub(x0, x1)` on two existing nodes. -/
def subF (bp : Bool) (x0 x1 : NodeId) (st : St) : St × NodeId :=
  applyF bp .sub [x0, x1] st

/-- `div(x0, x1)` on two existing nodes. -/
def divF (bp : Bool) (x0 x1 : NodeId) (st : St) : St × NodeId :=
  applyF bp .div [x0, x1] st

/-- `pow(x, c) = Pow(c)(x)` on an existing node. -/
def powF (bp : Bool) (x : NodeId) (c : Int) (st : St) : St × NodeId :=
  applyF bp (.pow c) [x] st

/-! Operator dispatch (step22.py lines 257-267).  Each `v_*` function embeds one
dunder assignment; a raw scalar operand is auto-coerced to a constant leaf node
by `as_array`/`as_var` before the operation is applied. -/

/-- `Var.__add__ = add`: `node + scalar`. -/
def v_add (bp : Bool) (x : NodeId) (s : ℚ) (st : St) : St × NodeId :=
  let p := newLeaf s st
  applyF bp .add [x, p.2] p.1

/-- `Var.__radd__ = add`: `scalar + node` dispatches to `add(self, other)`,
so the inputs are ordered `(node, scalar)`. -/
def v_radd (bp : Bool) (s : ℚ) (x : NodeId) (st : St) : St × NodeId :=
  v_add bp x s st

/-- `Var.__mul__ = mul`: `node * scalar`. -/
def v_mul (bp : Bool) (x : NodeId) (s : ℚ) (st : St) : St × NodeId :=
  let p := newLeaf s st
  applyF bp .mul [x, p.2] p.1

/-- `Var.__rmul__ = mul`: `scalar * node`. -/
def v_rmul (bp : Bool) (s : ℚ) (x : NodeId) (st : St) : St × NodeId :=
  v_mul bp x s st

/-- `Var.__sub__ = sub`: `node - scalar` is `Sub()(node, scalar)`. -/
def v_sub (bp : Bool) (x : NodeId) (s : ℚ) (st : St) : St × NodeId :=
  let p := newLeaf s st
  applyF bp .sub [x, p.2] p.1

/-- `Var.__rsub__ = rsub`: `scalar - node` is `Sub()(scalar, node)`
(`rsub` swaps the operands before calling `Sub`). -/
def v_rsub (bp : Bool) (s : ℚ) (x : NodeId) (st : St) : St × NodeId :=
  let p := newLeaf s st
  applyF bp .sub [p.2, x] p.1

/-- `Var.__truediv__ = div`: `node / scalar`. -/
def v_div (bp : Bool) (x : NodeId) (s : ℚ) (st : St) : St × NodeId :=
  let p := newLeaf s st
  applyF bp .div [x, p.2] p.1

/-- `Var.__rtruediv__ = rdiv`: `scalar / node` is `Div()(scalar, node)`. -/
def v_rdiv (bp : Bool) (s : ℚ) (x : NodeId) (st : St) : St × NodeId :=
  let p := newLeaf s st
  applyF bp .div [p.2, x] p.1

/-- `Var.__pow__ = pow`: `node ** c` is `Pow(c)(node)`; the exponent stays a
raw parameter, it is never coerced to a node. -/
def v_pow (bp : Bool) (x : NodeId) (c : Int) (st : St) : St × NodeId :=
  applyF bp (.pow c) [x] st

/-- `scalar ** node`: `Var` defines no reflected power method anywhere
(the class body and the overload block at lines 257-267 assign `__pow__` but
no `__rpow__`), so Python raises `TypeError: unsupported operand type(s)`. -/
def v_rpow (_bp : Bool) (_c : Int) (_x : NodeId) (_st : St) : Except Err (St × NodeId) :=
  .error .typeError

/-! The backward scheduler (`Var.backward`, step22.py lines 71-104). -/

/-- The worklist discipline of `add_func` (lines 78-82): Python appends the
new function and re-sorts the list ascending by `generation` with a stable
sort, then `backward` pops from the *end*.  We keep the list reversed
(descending, head = next pop), so the append-then-stable-sort becomes:
insert before the first entry whose generation is `≤` the new one (among equal
generations the most recently inserted entry is popped first, exactly the
stable-sort tie-break). -/
def wlInsert (st : St) (fid : FuncId) : List FuncId → List FuncId
  | [] => [fid]
  | g :: rest =>
    if (funcAt st g).generation ≤ (funcAt st fid).generation then fid :: g :: rest
    else g :: wlInsert st fid rest

/-- `add_func(f)` for a non-`None` `f`: skip if already in `seen_set`,
otherwise insert into the worklist and mark seen. -/
def addFunc (st : St) (fid : FuncId) (wl seen : List FuncId) :
    List FuncId × List FuncId :=
  if fid ∈ seen then (wl, seen) else (wlInsert st fid wl, fid :: seen)

/-- The accumulation loop `for x, gx in zip(f.inputs, gxs)` (lines 93-100):
if `x.grad is None` set it to `gx`, else `x.grad = x.grad + gx` (adding a
`None` `gx` to a present gradient is a Python `TypeError`); then, if `x` has a
creator, `add_func` it. -/
def accumPairs (st : St) (wl seen : List FuncId) :
    List (NodeId × Option ℚ) → Except Err (St × List FuncId × List FuncId)
  | [] => .ok (st, wl, seen)
  | (x, gx) :: rest =>
    let nd := nodeAt st x
    match nd.grad, gx with
    | some _, none => .error .typeError
    | some g, some v =>
      let st' := setNode st x { nd with grad := some (g + v) }
      match nd.creator with
      | none => accumPairs st' wl seen rest
      | some c =>
        let p := addFunc st' c wl seen
        accumPairs st' p.1 p.2 rest
    | none, _ =>
      let st' := setNode st x { nd with grad := gx }
      match nd.creator with
      | none => accumPairs st' wl seen rest
      | some c =>
        let p := addFunc st' c wl seen
        accumPairs st' p.1 p.2 rest

/-- `for y in f.outputs: y().grad = None` (lines 102-104). -/
def clearGrads (st : St) : List NodeId → St
  | [] => st
  | o :: rest => clearGrads (setNode st o { nodeAt st o with grad := none }) rest

/-- The `while funcs:` loop (lines 86-104).  One iteration pops the
highest-generation function, gathers its outputs' current gradients, runs the
operation's backward rule on them, accumulates the results into the inputs
(enqueueing their creators), and — unless `retain_grad` — clears the popped
function's output gradients.  `fuel` only bounds the iteration count; the seen
set makes the Python loop finite, and `backward` below supplies fuel that can
never run out. -/
def backwardLoop (retain : Bool) (fuel : Nat) (st : St) (wl seen : List FuncId) :
    Except Err St :=
  match fuel, wl with
  | _, [] => .ok st
  | 0, _ :: _ => .error .outOfFuel
  | fuel + 1, f :: rest =>
    let fn := funcAt st f
    let gys := fn.outputs.map fun o => (nodeAt st o).grad
    let xs := fn.inputs.map fun i => (nodeAt st i).data
    match fn.kind.backwardRule gys xs with
    | .error e => .error e
    | .ok gxs =>
      match accumPairs st rest seen (fn.inputs.zip gxs) with
      | .error e => .error e
      | .ok (st', wl', seen') =>
        backwardLoop retain fuel (if retain then st' else clearGrads st' fn.outputs) wl' seen'

/-- `Var.backward(retain_grad)` (lines 71-104).  Seeds `self.grad` with ones
(`1` for the scalar payloads) when absent, then seeds the worklist with
`self.creator`.  When `self.creator` is `None`, Python appends `None` to the
worklist and `funcs.sort(key=lambda x: x.generation)` raises
`AttributeError` — `None` has no `generation` attribute. -/
def backward (retain : Bool) (root : NodeId) (st : St) : Except Err St :=
  let nd := nodeAt st root
  let st1 := if nd.grad = none then setNode st root { nd with grad := some 1 } else st
  match nd.creator with
  | none => .error .attributeError
  | some f => backwardLoop retain (st.funcs.length + st.nodes.length + 1) st1 [f] [f]

/-! Observation helpers for stating results of a backward run. -/

def runBW (retain : Bool) (root : NodeId) (st : St) : Option St :=
  match backward retain root st with
  | .ok s => some s
  | .error _ => none

def runBWErr (retain : Bool) (root : NodeId) (st : St) : Option Err :=
  match backward retain root st with
  | .ok _ => none
  | .error e => some e

def outData (p : St × NodeId) : ℚ := (nodeAt p.1 p.2).data

/-! Scenario graphs, built through the embedded operations exactly as the
repository's drivers build them. -/

/-- `a, b, c` leaves; `y = (a + b) * c` (the chain-rule example of the spec and
of the `step20.py` driver).  Arena layout: node 0 = `a`, node 1 = `b`,
node 2 = `c`, node 3 = `a + b` (output of func 0, `Add`), node 4 = `y`
(output of func 1, `Mul`). -/
def c5St (a b c : ℚ) : St :=
  let s0 := (newLeaf a stEmpty).1
  let s1 := (newLeaf b s0).1
  let s2 := (newLeaf c s1).1
  let s3 := (addF true 0 1 s2).1
  (mulF true 3 2 s3).1

/-- The concrete instance `a = 3, b = 2, c = 5`. -/
def c1St : St := c5St 3 2 5

/-- Fan-out: leaf `x` (node 0) consumed by two independent operations:
`v1 = x * a` (node 3, func 0) and `v2 = x * n` (node 4, func 1), combined by
`y = v1 + v2` (node 5, func 2) — the spec's fan-out accumulation scenario. -/
def fanSt (x a n : ℚ) : St :=
  let s0 := (newLeaf x stEmpty).1
  let s1 := (newLeaf a s0).1
  let s2 := (newLeaf n s1).1
  let s3 := (mulF true 0 1 s2).1
  let s4 := (mulF true 0 2 s3).1
  (addF true 3 4 s4).1

/-- One node passed as both inputs of a single `Add`: `z = x + x`
(node 0 = `x`, node 1 = `z`, func 0 with `inputs = [0, 0]`). -/
def dupSt (v : ℚ) : St :=
  let s0 := (newLeaf v stEmpty).1
  (addF true 0 0 s0).1

/-- A single leaf `Var(2.0)` with no creator. -/
def leafSt : St := (newLeaf 2 stEmpty).1

/-- `x = 2` (node 0), `z = x ** 3` (node 1, func 0) — the power-rule driver of
`step22.py` lines 289-292. -/
def powSt : St := (powF true 0 3 leafSt).1

/-- A graph whose single `Add` has an output (node 2) with an absent gradient:
exactly the state in which the scheduler pops an operation none of whose
outputs ever received a gradient. -/
def addNoGradSt : St :=
  let s0 := (newLeaf 1 stEmpty).1
  let s1 := (newLeaf 2 s0).1
  (addF true 0 1 s1).1

/-- Same malformed situation with a `Mul` (whose backward rule performs
arithmetic on the output gradient). -/
def mulNoGradSt : St :=
  let s0 := (newLeaf 1 stEmpty).1
  let s1 := (newLeaf 2 s0).1
  (mulF true 0 1 s1).1

/-- A one-node arena whose node already holds a gradient, for exercising the
accumulation branch of the backward loop. -/
def seededSt : St := { nodes := [{ data := 2, grad := some 1 }], funcs := [] }

/-! The structural graph invariant of the spec's data model (claim C4):
leaves have generation 0, a recorded operation's generation is the max of its
inputs' generations, an output's generation is its creator's plus one, and
output links point back to the creator. -/

/-- Node-level invariant: a creator-less node has generation 0; a created
node's creator is a valid operation index and the node's generation is the
creator's generation plus one. -/
def creatorOkB (st : St) (n : Node) : Bool :=
  match n.creator with
  | none => n.generation == 0
  | some f => decide (f < st.funcs.length) && (n.generation == (funcAt st f).generation + 1)

/-- Operation-level invariant: nonempty input list, inputs in range, the
operation's generation is the max of its inputs' generations, and each output
is in range and points back to this operation as its creator. -/
def funcOkB (st : St) (f : FuncId) : Bool :=
  (!(funcAt st f).inputs.isEmpty) &&
  ((funcAt st f).inputs.all fun i => decide (i < st.nodes.length)) &&
  ((funcAt st f).generation == genMax st (funcAt st f).inputs) &&
  ((funcAt st f).outputs.all fun o =>
    decide (o < st.nodes.length) && ((nodeAt st o).creator == some f))

/-- Back-link invariant: a node's creator lists that node among its outputs
(`set_creator` is called exactly on the outputs of the creating operation). -/
def backLinkB (st : St) (i : NodeId) : Bool :=
  match (nodeAt st i).creator with
  | none => true
  | some f => decide (i ∈ (funcAt st f).outputs)

def wfB (st : St) : Bool :=
  (st.nodes.all fun n => creatorOkB st n) &&
  ((List.range st.nodes.length).all fun i => backLinkB st i) &&
  ((List.range st.funcs.length).all fun f => funcOkB st f)

/-- Well-formedness of a recorded graph. -/
def WF (st : St) : Prop := wfB st = true

instance (st : St) : Decidable (WF st) := inferInstanceAs (Decidable (wfB st = true))

/-- The worklist is sorted by descending generation (head = next pop); this is
the normal form `add_func` maintains. -/
def wlSortedB (st : St) : List FuncId → Bool
  | [] => true
  | [_] => true
  | a :: b :: rest =>
    decide ((funcAt st b).generation ≤ (funcAt st a).generation) && wlSortedB st (b :: rest)

/-- `f'` feeds into `f`: some output node of `f'` is an input of `f`. -/
def Feeds (st : St) (f' f : FuncId) : Prop :=
  ∃ o, o ∈ (funcAt st f').outputs ∧ o ∈ (funcAt st f).inputs

/-- Operations whose backward rule performs arithmetic on the incoming output
gradient (every library operation except `Add`, whose rule returns `gy`
untouched). -/
def FKind.gradArith : FKind → Bool
  | .add => false
  | _ => true

/-- The backward pass only rewrites gradients: the operation heap, the number
of nodes, and every node's creator and generation are untouched. -/
def GradOnly (st st' : St) : Prop :=
  st'.funcs = st.funcs ∧ st'.nodes.length = st.nodes.length ∧
  ∀ i, (nodeAt st' i).creator = (nodeAt st i).creator ∧
       (nodeAt st' i).generation = (nodeAt st i).generation

/-- The final state of `backward(retain_grad=False)` on the concrete
`(3 + 2) * 5` graph: leaves hold their gradients, the intermediate (node 3)
and the root (node 4) are cleared. -/
def c5FinSt : St :=
  { nodes := [
      { data := 3, grad := some 5 },
      { data := 2, grad := some 5 },
      { data := 5, grad := some 5 },
      { data := 5, grad := none, creator := some 0, generation := 1 },
      { data := 25, grad := none, creator := some 1, generation := 2 } ],
    funcs := [
      { kind := .add, inputs := [0, 1], outputs := [3], generation := 0 },
      { kind := .mul, inputs := [3, 2], outputs := [4], generation := 1 } ] }

/-- A mid-traversal state of the same graph: the `Mul` has been processed
(leaf `c` = node 2 and intermediate node 3 hold gradient 5, the root is
already cleared) and the `Add` (func 0) is the remaining worklist entry. -/
def c5MidSt : St :=
  { nodes := [
      { data := 3 },
      { data := 2 },
      { data := 5, grad := some 5 },
      { data := 5, grad := some 5, creator := some 0, generation := 1 },
      { data := 25, grad := none, creator := some 1, generation := 2 } ],
    funcs := [
      { kind := .add, inputs := [0, 1], outputs := [3], generation := 0 },
      { kind := .mul, inputs := [3, 2], outputs := [4], generation := 1 } ] }

/-- The state after finishing the traversal from `c5MidSt`: the leaf `c`
(node 2) has retained its gradient through the processing of the `Add`. -/
def c5MidFin : St :=
  { nodes := [
      { data := 3, grad := some 5 },
      { data := 2, grad := some 5 },
      { data := 5, grad := some 5 },
      { data := 5, grad := none, creator := some 0, generation := 1 },
      { data := 25, grad := none, creator := some 1, generation := 2 } ],
    funcs := [
      { kind := .add, inputs := [0, 1], outputs := [3], generation := 0 },
      { kind := .mul, inputs := [3, 2], outputs := [4], generation := 1 } ] }

/-! Arena access lemmas. -/

theorem getD_concat {α : Type} (l : List α) (a d : α) : (l ++ [a]).getD l.length d = a := by
  simp [List.getD_eq_getElem?_getD, List.getElem?_concat_length]

theorem getD_set_self {α : Type} (l : List α) (i : Nat) (a d : α) (h : i < l.length) :
    (l.set i a).getD i d = a := by
  simp [List.getD_eq_getElem?_getD, List.getElem?_set_self', h]

theorem getD_set_ne {α : Type} (l : List α) (i j : Nat) (a d : α) (h : i ≠ j) :
    (l.set i a).getD j d = l.getD j d := by
  simp [List.getD_eq_getElem?_getD, List.getElem?_set_ne h]

theorem nodeAt_mem (st : St) (i : NodeId) (h : i < st.nodes.length) :
    nodeAt st i ∈ st.nodes := by
  rw [nodeAt, List.getD_eq_getElem st.nodes dfltNode h]
  exact List.getElem_mem h

theorem nodeAt_newLeaf_lt (v : ℚ) (st : St) (i : NodeId) (h : i < st.nodes.length) :
    nodeAt (newLeaf v st).1 i = nodeAt st i := by
  simp only [newLeaf, nodeAt]
  exact List.getD_append _ _ _ _ h

theorem nodeAt_newLeaf_self (v : ℚ) (st : St) :
    nodeAt (newLeaf v st).1 st.nodes.length = { data := v } := by
  simp only [newLeaf, nodeAt]
  exact getD_concat _ _ _

theorem newLeaf_nodes_len (v : ℚ) (st : St) :
    (newLeaf v st).1.nodes.length = st.nodes.length + 1 := by
  simp [newLeaf]

theorem newLeaf_funcs (v : ℚ) (st : St) : (newLeaf v st).1.funcs = st.funcs := rfl

theorem newLeaf_snd (v : ℚ) (st : St) : (newLeaf v st).2 = st.nodes.length := rfl

theorem funcAt_newLeaf (v : ℚ) (st : St) (f : FuncId) :
    funcAt (newLeaf v st).1 f = funcAt st f := rfl

theorem applyF_snd (bp : Bool) (k : FKind) (args : List NodeId) (st : St) :
    (applyF bp k args st).2 = st.nodes.length := by
  cases bp <;> rfl

theorem applyF_nodes_len (bp : Bool) (k : FKind) (args : List NodeId) (st : St) :
    (applyF bp k args st).1.nodes.length = st.nodes.length + 1 := by
  cases bp <;> simp [applyF]

theorem applyF_true_funcs_len (k : FKind) (args : List NodeId) (st : St) :
    (applyF true k args st).1.funcs.length = st.funcs.length + 1 := by
  simp [applyF]

theorem nodeAt_applyF_lt (bp : Bool) (k : FKind) (args : List NodeId) (st : St) (i : NodeId)
    (h : i < st.nodes.length) :
    nodeAt (applyF bp k args st).1 i = nodeAt st i := by
  cases bp <;> simp only [applyF, nodeAt] <;> exact List.getD_append _ _ _ _ h

theorem nodeAt_applyF_true_out (k : FKind) (args : List NodeId) (st : St) :
    nodeAt (applyF true k args st).1 st.nodes.length =
      { data := k.forward (args.map fun i => (nodeAt st i).data),
        grad := none, creator := some st.funcs.length, generation := genMax st args + 1 } := by
  simp only [applyF, nodeAt]
  exact getD_concat _ _ _

theorem nodeAt_applyF_false_out (k : FKind) (args : List NodeId) (st : St) :
    nodeAt (applyF false k args st).1 st.nodes.length =
      { data := k.forward (args.map fun i => (nodeAt st i).data) } := by
  simp only [applyF, nodeAt]
  exact getD_concat _ _ _

theorem funcAt_applyF_true_lt (k : FKind) (args : List NodeId) (st : St) (f : FuncId)
    (h : f < st.funcs.length) :
    funcAt (applyF true k args st).1 f = funcAt st f := by
  simp only [applyF, funcAt]
  exact List.getD_append _ _ _ _ h

theorem funcAt_applyF_true_new (k : FKind) (args : List NodeId) (st : St) :
    funcAt (applyF true k args st).1 st.funcs.length =
      { kind := k, inputs := args, outputs := [st.nodes.length], generation := genMax st args } := by
  simp only [applyF, funcAt]
  exact getD_concat _ _ _

theorem nodeAt_setNode_self (st : St) (i : NodeId) (n : Node) (h : i < st.nodes.length) :
    nodeAt (setNode st i n) i = n := by
  simp only [setNode, nodeAt]
  exact getD_set_self _ _ _ _ h

theorem getD_oob {α : Type} (l : List α) (i : Nat) (d : α) (h : l.length ≤ i) :
    l.getD i d = d := by
  simp [List.getD_eq_getElem?_getD, List.getElem?_eq_none h]

theorem setNode_funcs (st : St) (x : NodeId) (n : Node) : (setNode st x n).funcs = st.funcs :=
  rfl

theorem setNode_nodes_len (st : St) (x : NodeId) (n : Node) :
    (setNode st x n).nodes.length = st.nodes.length := by
  simp [setNode]

/-! `GradOnly` machinery: every state change performed by the backward pass
rewrites only gradients. -/

theorem GradOnly_refl (st : St) : GradOnly st st := ⟨rfl, rfl, fun _ => ⟨rfl, rfl⟩⟩

theorem GradOnly_trans {s1 s2 s3 : St} (h1 : GradOnly s1 s2) (h2 : GradOnly s2 s3) :
    GradOnly s1 s3 :=
  ⟨h2.1.trans h1.1, h2.2.1.trans h1.2.1,
   fun i => ⟨(h2.2.2 i).1.trans (h1.2.2 i).1, (h2.2.2 i).2.trans (h1.2.2 i).2⟩⟩

theorem GradOnly_setNode (st : St) (x : NodeId) (g : Option ℚ) :
    GradOnly st (setNode st x { nodeAt st x with grad := g }) := by
  refine ⟨rfl, setNode_nodes_len st x _, fun i => ?_⟩
  by_cases hx : i = x
  · subst hx
    by_cases hlen : i < st.nodes.length
    · rw [nodeAt_setNode_self st i _ hlen]
      exact ⟨rfl, rfl⟩
    · have hle := Nat.le_of_not_lt hlen
      show ((nodeAt (setNode st i _) i).creator = _) ∧ _
      unfold nodeAt setNode
      rw [getD_oob _ _ _ (by simpa using hle), getD_oob _ _ _ hle]
      exact ⟨rfl, rfl⟩
  · show ((nodeAt (setNode st x _) i).creator = _) ∧ _
    unfold nodeAt setNode
    rw [getD_set_ne _ _ _ _ _ fun he => hx he.symm]
    exact ⟨rfl, rfl⟩

theorem clearGrads_funcs : ∀ (outs : List NodeId) (st : St),
    (clearGrads st outs).funcs = st.funcs := by
  intro outs
  induction outs with
  | nil => intro st; rfl
  | cons o t ih =>
    intro st
    simp only [clearGrads]
    exact (ih _).trans rfl

theorem GradOnly_clearGrads : ∀ (outs : List NodeId) (st : St),
    GradOnly st (clearGrads st outs) := by
  intro outs
  induction outs with
  | nil => intro st; exact GradOnly_refl st
  | cons o t ih =>
    intro st
    simp only [clearGrads]
    exact GradOnly_trans (GradOnly_setNode st o none) (ih _)

theorem clearGrads_frame : ∀ (outs : List NodeId) (st : St) (i : NodeId), i ∉ outs →
    nodeAt (clearGrads st outs) i = nodeAt st i := by
  intro outs
  induction outs with
  | nil => intro st i _; rfl
  | cons o t ih =>
    intro st i hni
    have hio : i ≠ o := fun he => hni (he ▸ List.mem_cons_self o t)
    have hit : i ∉ t := fun ht => hni (List.mem_cons_of_mem o ht)
    simp only [clearGrads]
    rw [ih _ i hit]
    unfold nodeAt setNode
    exact getD_set_ne _ _ _ _ _ fun he => hio he.symm

theorem clearGrads_grad : ∀ (outs : List NodeId) (st : St) (o : NodeId), o ∈ outs →
    o < st.nodes.length → (nodeAt (clearGrads st outs) o).grad = none := by
  intro outs
  induction outs with
  | nil => intro st o h _; cases h
  | cons a t ih =>
    intro st o hmem hlen
    simp only [clearGrads]
    by_cases hot : o ∈ t
    · exact ih _ o hot (by rw [setNode_nodes_len]; exact hlen)
    · have hoa : o = a := by
        rcases List.mem_cons.mp hmem with h | h
        · exact h
        · exact absurd h hot
      subst hoa
      rw [clearGrads_frame t _ o hot]
      rw [nodeAt_setNode_self st o _ hlen]

theorem clearGrads_grad_mono : ∀ (outs : List NodeId) (st : St) (i : NodeId),
    (nodeAt (clearGrads st outs) i).grad ≠ none → (nodeAt st i).grad ≠ none := by
  intro outs
  induction outs with
  | nil => intro st i h; exact h
  | cons a t ih =>
    intro st i h
    have h1 := ih _ i h
    by_cases hia : i = a
    · subst hia
      by_cases hlen : i < st.nodes.length
      · rw [nodeAt_setNode_self st i _ hlen] at h1
        exact absurd rfl h1
      · unfold nodeAt setNode at h1
        rw [getD_oob _ _ _ (by simpa using Nat.le_of_not_lt hlen)] at h1
        exact absurd rfl h1
    · unfold nodeAt setNode at h1
      rw [getD_set_ne _ _ _ _ _ fun he => hia he.symm] at h1
      exact h1

/-! `foldl max` bounds, for `genMax` (Python's `max` over the input
generations). -/

theorem le_foldl_max (l : List Nat) (init : Nat) : init ≤ l.foldl max init := by
  induction l generalizing init with
  | nil => exact Nat.le_refl _
  | cons a t ih => exact Nat.le_trans (Nat.le_max_left init a) (ih (max init a))

theorem mem_le_foldl_max (l : List Nat) (a init : Nat) (h : a ∈ l) : a ≤ l.foldl max init := by
  induction l generalizing init with
  | nil => cases h
  | cons b t ih =>
    rcases List.mem_cons.mp h with rfl | h'
    · exact Nat.le_trans (Nat.le_max_right init a) (le_foldl_max t (max init a))
    · exact ih (max init b) h'

theorem gen_le_genMax (st : St) (ids : List NodeId) (i : NodeId) (h : i ∈ ids) :
    (nodeAt st i).generation ≤ genMax st ids :=
  mem_le_foldl_max _ _ 0 (List.mem_map_of_mem _ h)

theorem genMax_congr (st st' : St) (ids : List NodeId)
    (h : ∀ i ∈ ids, nodeAt st' i = nodeAt st i) : genMax st' ids = genMax st ids := by
  unfold genMax
  congr 1
  exact List.map_congr_left fun i hi => by rw [h i hi]

/-! Characterizations of the well-formedness checkers. -/

theorem wf_iff (st : St) : WF st ↔
    (∀ n ∈ st.nodes, creatorOkB st n = true) ∧
    (∀ i, i < st.nodes.length → backLinkB st i = true) ∧
    (∀ f, f < st.funcs.length → funcOkB st f = true) := by
  simp [WF, wfB, List.all_eq_true, List.mem_range, and_assoc]

theorem creatorOkB_none_iff (st : St) (n : Node) (h : n.creator = none) :
    creatorOkB st n = true ↔ n.generation = 0 := by
  simp [creatorOkB, h]

theorem creatorOkB_some_iff (st : St) (n : Node) (f : FuncId) (h : n.creator = some f) :
    creatorOkB st n = true ↔
      f < st.funcs.length ∧ n.generation = (funcAt st f).generation + 1 := by
  simp [creatorOkB, h]

theorem funcOkB_iff (st : St) (f : FuncId) : funcOkB st f = true ↔
    (funcAt st f).inputs ≠ [] ∧
    (∀ i ∈ (funcAt st f).inputs, i < st.nodes.length) ∧
    (funcAt st f).generation = genMax st (funcAt st f).inputs ∧
    (∀ o ∈ (funcAt st f).outputs, o < st.nodes.length ∧ (nodeAt st o).creator = some f) := by
  simp [funcOkB, List.all_eq_true, List.isEmpty_iff, and_assoc]

/-! Well-formedness depends only on the graph structure, so it transports
along `GradOnly`. -/

theorem funcAt_ext (st st' : St) (hf : st'.funcs = st.funcs) (f : FuncId) :
    funcAt st' f = funcAt st f := by
  unfold funcAt
  rw [hf]

theorem genMax_congr_gen (st st' : St) (ids : List NodeId)
    (h : ∀ i, (nodeAt st' i).generation = (nodeAt st i).generation) :
    genMax st' ids = genMax st ids := by
  unfold genMax
  congr 1
  exact List.map_congr_left fun i _ => h i

theorem creatorOkB_ext (st st' : St) (n n' : Node) (hf : st'.funcs = st.funcs)
    (hc : n'.creator = n.creator) (hgen : n'.generation = n.generation) :
    creatorOkB st' n' = creatorOkB st n := by
  unfold creatorOkB funcAt
  rw [hc, hgen, hf]

theorem backLinkB_ext (st st' : St) (hf : st'.funcs = st.funcs)
    (hc : ∀ i, (nodeAt st' i).creator = (nodeAt st i).creator) (i : NodeId) :
    backLinkB st' i = backLinkB st i := by
  unfold backLinkB funcAt
  rw [hc i, hf]

theorem funcOkB_ext (st st' : St) (hf : st'.funcs = st.funcs)
    (hlen : st'.nodes.length = st.nodes.length)
    (hc : ∀ i, (nodeAt st' i).creator = (nodeAt st i).creator)
    (hgen : ∀ i, (nodeAt st' i).generation = (nodeAt st i).generation)
    (f : FuncId) : funcOkB st' f = funcOkB st f := by
  have hfa : funcAt st' f = funcAt st f := funcAt_ext st st' hf f
  have h1 : (fun o => decide (o < st.nodes.length) && ((nodeAt st' o).creator == some f))
      = fun o => decide (o < st.nodes.length) && ((nodeAt st o).creator == some f) :=
    funext fun o => by rw [hc o]
  unfold funcOkB
  rw [hfa, hlen, genMax_congr_gen st st' _ hgen, h1]

theorem WF_gradOnly (st st' : St) (hg : GradOnly st st') (h : WF st) : WF st' := by
  obtain ⟨hfuncs, hlen, hpt⟩ := hg
  have hflen : st'.funcs.length = st.funcs.length := congrArg List.length hfuncs
  rw [wf_iff] at h ⊢
  obtain ⟨hn, hbl, hf⟩ := h
  refine ⟨?_, ?_, ?_⟩
  · intro n hmem
    obtain ⟨j, hj, he⟩ := List.mem_iff_getElem.mp hmem
    have hnj : n = nodeAt st' j := by
      rw [← he]
      unfold nodeAt
      rw [List.getD_eq_getElem st'.nodes dfltNode hj]
    rw [hnj, creatorOkB_ext st st' (nodeAt st j) (nodeAt st' j) hfuncs (hpt j).1 (hpt j).2]
    exact hn _ (nodeAt_mem st j (by rw [← hlen]; exact hj))
  · intro i hi
    rw [backLinkB_ext st st' hfuncs (fun i => (hpt i).1) i]
    exact hbl i (by rw [← hlen]; exact hi)
  · intro f hflen'
    rw [funcOkB_ext st st' hfuncs hlen (fun i => (hpt i).1) (fun i => (hpt i).2) f]
    exact hf f (by rw [← hflen]; exact hflen')

/-! Preservation of well-formedness by leaf creation. -/

theorem creatorOkB_newLeaf (v : ℚ) (st : St) (n : Node) :
    creatorOkB (newLeaf v st).1 n = creatorOkB st n := rfl

theorem applyF_true_nodes (k : FKind) (args : List NodeId) (st : St) :
    (applyF true k args st).1.nodes = st.nodes ++
      [{ data := k.forward (args.map fun i => (nodeAt st i).data),
         grad := none, creator := some st.funcs.length, generation := genMax st args + 1 }] := by
  simp [applyF]

theorem funcOkB_newLeaf (v : ℚ) (st : St) (f : FuncId) (h : funcOkB st f = true) :
    funcOkB (newLeaf v st).1 f = true := by
  rw [funcOkB_iff] at h ⊢
  rw [funcAt_newLeaf]
  obtain ⟨h1, h2, h3, h4⟩ := h
  refine ⟨h1, ?_, ?_, ?_⟩
  · intro i hi
    rw [newLeaf_nodes_len]
    exact Nat.lt_succ_of_lt (h2 i hi)
  · rw [genMax_congr st (newLeaf v st).1 _ fun i hi => nodeAt_newLeaf_lt v st i (h2 i hi)]
    exact h3
  · intro o ho
    obtain ⟨hol, hoc⟩ := h4 o ho
    refine ⟨?_, ?_⟩
    · rw [newLeaf_nodes_len]
      exact Nat.lt_succ_of_lt hol
    · rw [nodeAt_newLeaf_lt v st o hol]
      exact hoc

theorem backLinkB_newLeaf_lt (v : ℚ) (st : St) (i : NodeId) (h : i < st.nodes.length) :
    backLinkB (newLeaf v st).1 i = backLinkB st i := by
  unfold backLinkB
  rw [nodeAt_newLeaf_lt v st i h]
  rfl

theorem wf_newLeaf (v : ℚ) (st : St) (h : WF st) : WF (newLeaf v st).1 := by
  rw [wf_iff] at h ⊢
  obtain ⟨hn, hbl, hf⟩ := h
  refine ⟨?_, ?_, ?_⟩
  · intro n hmem
    have hm : n ∈ st.nodes ∨ n = { data := v } := by
      simpa [newLeaf] using hmem
    rw [creatorOkB_newLeaf]
    rcases hm with h1 | rfl
    · exact hn n h1
    · rw [creatorOkB_none_iff st _ rfl]
  · intro i hilen
    rw [newLeaf_nodes_len] at hilen
    rcases Nat.lt_succ_iff_lt_or_eq.mp hilen with hlt | heq
    · rw [backLinkB_newLeaf_lt v st i hlt]
      exact hbl i hlt
    · subst heq
      unfold backLinkB
      rw [nodeAt_newLeaf_self]
  · intro f hflen
    exact funcOkB_newLeaf v st f (hf f hflen)

/-! Preservation of well-formedness by a recorded operation application. -/

theorem creatorOkB_applyF (k : FKind) (args : List NodeId) (st : St) (n : Node)
    (h : creatorOkB st n = true) : creatorOkB (applyF true k args st).1 n = true := by
  cases hc : n.creator with
  | none =>
    rw [creatorOkB_none_iff _ _ hc] at h ⊢
    exact h
  | some f =>
    rw [creatorOkB_some_iff _ _ _ hc] at h ⊢
    obtain ⟨hflt, hg⟩ := h
    refine ⟨?_, ?_⟩
    · rw [applyF_true_funcs_len]
      exact Nat.lt_succ_of_lt hflt
    · rw [funcAt_applyF_true_lt k args st f hflt]
      exact hg

theorem funcOkB_applyF_old (k : FKind) (args : List NodeId) (st : St) (f : FuncId)
    (hflt : f < st.funcs.length) (h : funcOkB st f = true) :
    funcOkB (applyF true k args st).1 f = true := by
  rw [funcOkB_iff] at h ⊢
  rw [funcAt_applyF_true_lt k args st f hflt]
  obtain ⟨h1, h2, h3, h4⟩ := h
  refine ⟨h1, ?_, ?_, ?_⟩
  · intro i hi
    rw [applyF_nodes_len]
    exact Nat.lt_succ_of_lt (h2 i hi)
  · rw [genMax_congr st (applyF true k args st).1 _
      fun i hi => nodeAt_applyF_lt true k args st i (h2 i hi)]
    exact h3
  · intro o ho
    obtain ⟨hol, hoc⟩ := h4 o ho
    refine ⟨?_, ?_⟩
    · rw [applyF_nodes_len]
      exact Nat.lt_succ_of_lt hol
    · rw [nodeAt_applyF_lt true k args st o hol]
      exact hoc

theorem funcOkB_applyF_new (k : FKind) (args : List NodeId) (st : St)
    (hne : args ≠ []) (hargs : ∀ i ∈ args, i < st.nodes.length) :
    funcOkB (applyF true k args st).1 st.funcs.length = true := by
  rw [funcOkB_iff, funcAt_applyF_true_new]
  refine ⟨hne, ?_, ?_, ?_⟩
  · intro i hi
    rw [applyF_nodes_len]
    exact Nat.lt_succ_of_lt (hargs i hi)
  · show genMax st args = genMax (applyF true k args st).1 args
    rw [genMax_congr st (applyF true k args st).1 _
      fun i hi => nodeAt_applyF_lt true k args st i (hargs i hi)]
  · intro o ho
    rw [List.mem_singleton] at ho
    subst ho
    refine ⟨?_, ?_⟩
    · rw [applyF_nodes_len]
      exact Nat.lt_succ_self _
    · rw [nodeAt_applyF_true_out]

theorem wf_applyF (k : FKind) (args : List NodeId) (st : St) (h : WF st)
    (hne : args ≠ []) (hargs : ∀ i ∈ args, i < st.nodes.length) :
    WF (applyF true k args st).1 := by
  rw [wf_iff] at h ⊢
  obtain ⟨hn, hbl, hf⟩ := h
  refine ⟨?_, ?_, ?_⟩
  · intro n hmem
    rw [applyF_true_nodes] at hmem
    rcases List.mem_append.mp hmem with h1 | h1
    · exact creatorOkB_applyF k args st n (hn n h1)
    · rw [List.mem_singleton] at h1
      subst h1
      rw [creatorOkB_some_iff _ _ st.funcs.length rfl]
      refine ⟨?_, ?_⟩
      · rw [applyF_true_funcs_len]
        exact Nat.lt_succ_self _
      · rw [funcAt_applyF_true_new]
  · intro i hilen
    rw [applyF_nodes_len] at hilen
    rcases Nat.lt_succ_iff_lt_or_eq.mp hilen with hlt | heq
    · unfold backLinkB
      rw [nodeAt_applyF_lt true k args st i hlt]
      cases hc : (nodeAt st i).creator with
      | none => rfl
      | some f =>
        have hfl : f < st.funcs.length :=
          ((creatorOkB_some_iff st _ f hc).mp (hn _ (nodeAt_mem st i hlt))).1
        have hb := hbl i hlt
        unfold backLinkB at hb
        rw [hc] at hb
        show decide (i ∈ (funcAt (applyF true k args st).1 f).outputs) = true
        rw [funcAt_applyF_true_lt k args st f hfl]
        exact hb
    · subst heq
      simp [backLinkB, nodeAt_applyF_true_out, funcAt_applyF_true_new]
  · intro f hflen
    rw [applyF_true_funcs_len] at hflen
    rcases Nat.lt_succ_iff_lt_or_eq.mp hflen with hlt | heq
    · exact funcOkB_applyF_old k args st f hlt (hf f hlt)
    · subst heq
      exact funcOkB_applyF_new k args st hne hargs

/-! Worklist ordering (C3 machinery). -/

theorem wlSortedB_cons_cons (st : St) (a b : FuncId) (l : List FuncId) :
    wlSortedB st (a :: b :: l) =
      (decide ((funcAt st b).generation ≤ (funcAt st a).generation) && wlSortedB st (b :: l)) :=
  rfl

theorem wlSortedB_insert (st : St) (fid : FuncId) :
    ∀ wl, wlSortedB st wl = true → wlSortedB st (wlInsert st fid wl) = true := by
  intro wl
  induction wl with
  | nil => intro _; rfl
  | cons g rest ih =>
    intro h
    by_cases hc : (funcAt st g).generation ≤ (funcAt st fid).generation
    · rw [wlInsert, if_pos hc, wlSortedB_cons_cons]
      simp [hc, h]
    · have hlt : (funcAt st fid).generation ≤ (funcAt st g).generation :=
        Nat.le_of_lt (Nat.lt_of_not_le hc)
      rw [wlInsert, if_neg hc]
      cases rest with
      | nil => simp [wlInsert, wlSortedB, hlt]
      | cons b t =>
        rw [wlSortedB_cons_cons] at h
        obtain ⟨h1, h2⟩ := by simpa using h
        have ih' := ih h2
        by_cases hcb : (funcAt st b).generation ≤ (funcAt st fid).generation
        · rw [show wlInsert st fid (b :: t) = fid :: b :: t from by rw [wlInsert, if_pos hcb]]
          rw [wlSortedB_cons_cons, wlSortedB_cons_cons]
          simp [hlt, hcb, h2]
        · rw [show wlInsert st fid (b :: t) = b :: wlInsert st fid t from by
            rw [wlInsert, if_neg hcb]]
          rw [wlSortedB_cons_cons]
          have ih'' : wlSortedB st (b :: wlInsert st fid t) = true := by
            rw [show wlInsert st fid (b :: t) = b :: wlInsert st fid t from by
              rw [wlInsert, if_neg hcb]] at ih'
            exact ih'
          simp [h1, ih'']

theorem wlSortedB_head_max (st : St) :
    ∀ rest f, wlSortedB st (f :: rest) = true →
      ∀ g ∈ rest, (funcAt st g).generation ≤ (funcAt st f).generation := by
  intro rest
  induction rest with
  | nil =>
    intro f _ g hg
    cases hg
  | cons b t ih =>
    intro f h g hg
    rw [wlSortedB_cons_cons] at h
    obtain ⟨h1, h2⟩ := by simpa using h
    rcases List.mem_cons.mp hg with rfl | hg'
    · exact h1
    · exact Nat.le_trans (ih b h2 g hg') h1

theorem wlSortedB_tail (st : St) (f : FuncId) (rest : List FuncId)
    (h : wlSortedB st (f :: rest) = true) : wlSortedB st rest = true := by
  cases rest with
  | nil => rfl
  | cons b t =>
    rw [wlSortedB_cons_cons] at h
    obtain ⟨h1, h2⟩ := by simpa using h
    exact h2

theorem mem_wlInsert_self (st : St) (fid : FuncId) : ∀ l, fid ∈ wlInsert st fid l := by
  intro l
  induction l with
  | nil => simp [wlInsert]
  | cons g t ih =>
    rw [wlInsert]
    by_cases hc : (funcAt st g).generation ≤ (funcAt st fid).generation
    · rw [if_pos hc]
      exact List.mem_cons_self _ _
    · rw [if_neg hc]
      exact List.mem_cons_of_mem g ih

theorem mem_wlInsert_of_mem (st : St) (fid g : FuncId) :
    ∀ l, g ∈ l → g ∈ wlInsert st fid l := by
  intro l
  induction l with
  | nil => intro h; cases h
  | cons a t ih =>
    intro h
    rw [wlInsert]
    by_cases hc : (funcAt st a).generation ≤ (funcAt st fid).generation
    · rw [if_pos hc]
      exact List.mem_cons_of_mem _ h
    · rw [if_neg hc]
      rcases List.mem_cons.mp h with rfl | h'
      · exact List.mem_cons_self _ _
      · exact List.mem_cons_of_mem a (ih h')

theorem mem_of_mem_wlInsert (st : St) (fid g : FuncId) :
    ∀ l, g ∈ wlInsert st fid l → g = fid ∨ g ∈ l := by
  intro l
  induction l with
  | nil =>
    intro h
    simp [wlInsert] at h
    exact Or.inl h
  | cons a t ih =>
    intro h
    rw [wlInsert] at h
    by_cases hc : (funcAt st a).generation ≤ (funcAt st fid).generation
    · rw [if_pos hc] at h
      rcases List.mem_cons.mp h with rfl | h'
      · exact Or.inl rfl
      · exact Or.inr h'
    · rw [if_neg hc] at h
      rcases List.mem_cons.mp h with rfl | h'
      · exact Or.inr (List.mem_cons_self _ _)
      · rcases ih h' with h'' | h''
        · exact Or.inl h''
        · exact Or.inr (List.mem_cons_of_mem a h'')

theorem wlInsert_congr (st st' : St) (hf : st'.funcs = st.funcs) (fid : FuncId) :
    ∀ l, wlInsert st' fid l = wlInsert st fid l := by
  intro l
  induction l with
  | nil => rfl
  | cons g t ih =>
    rw [wlInsert, wlInsert, funcAt_ext st st' hf g, funcAt_ext st st' hf fid, ih]

theorem wlSortedB_congr (st st' : St) (hf : st'.funcs = st.funcs) :
    ∀ l, wlSortedB st' l = wlSortedB st l := by
  intro l
  induction l with
  | nil => rfl
  | cons a t ih =>
    cases t with
    | nil => rfl
    | cons b t2 =>
      rw [wlSortedB_cons_cons, wlSortedB_cons_cons, funcAt_ext st st' hf a,
        funcAt_ext st st' hf b, ih]

theorem addFunc_wl_mono (st : St) (c : FuncId) (wl seen : List FuncId) :
    ∀ g ∈ wl, g ∈ (addFunc st c wl seen).1 := by
  intro g hg
  unfold addFunc
  split
  · exact hg
  · exact mem_wlInsert_of_mem st c g wl hg

theorem addFunc_seen_mono (st : St) (c : FuncId) (wl seen : List FuncId) :
    ∀ s ∈ seen, s ∈ (addFunc st c wl seen).2 := by
  intro s hs
  unfold addFunc
  split
  · exact hs
  · exact List.mem_cons_of_mem c hs

theorem addFunc_wl_sub (st : St) (c : FuncId) (wl seen : List FuncId) :
    ∀ g ∈ (addFunc st c wl seen).1, g = c ∨ g ∈ wl := by
  intro g hg
  unfold addFunc at hg
  split at hg
  · exact Or.inr hg
  · exact mem_of_mem_wlInsert st c g wl hg

theorem addFunc_seen_sub (st : St) (c : FuncId) (wl seen : List FuncId) :
    ∀ s ∈ (addFunc st c wl seen).2, s = c ∨ s ∈ seen := by
  intro s hs
  unfold addFunc at hs
  split at hs
  · exact Or.inr hs
  · rcases List.mem_cons.mp hs with rfl | h
    · exact Or.inl rfl
    · exact Or.inr h

theorem addFunc_c_seen (st : St) (c : FuncId) (wl seen : List FuncId) :
    c ∈ (addFunc st c wl seen).2 := by
  unfold addFunc
  by_cases hc : c ∈ seen
  · rw [if_pos hc]
    exact hc
  · rw [if_neg hc]
    exact List.mem_cons_self _ _

theorem addFunc_sorted (st : St) (c : FuncId) (wl seen : List FuncId)
    (h : wlSortedB st wl = true) : wlSortedB st (addFunc st c wl seen).1 = true := by
  unfold addFunc
  split
  · exact h
  · exact wlSortedB_insert st c wl h

theorem addFunc_congr (st st' : St) (hf : st'.funcs = st.funcs) (c : FuncId)
    (wl seen : List FuncId) : addFunc st' c wl seen = addFunc st c wl seen := by
  unfold addFunc
  rw [wlInsert_congr st st' hf c wl]

/-- In a well-formed graph, a producer has strictly smaller generation than any
operation it feeds into (the output's generation is producer's + 1, and a
consumer's generation is the max over its inputs' generations). -/
theorem feeds_gen_lt (st : St) (f f' : FuncId) (hwf : WF st)
    (hf : f < st.funcs.length) (hf' : f' < st.funcs.length) (hfeeds : Feeds st f' f) :
    (funcAt st f').generation < (funcAt st f).generation := by
  obtain ⟨o, ho', hoi⟩ := hfeeds
  rw [wf_iff] at hwf
  obtain ⟨hn, _, hfn⟩ := hwf
  obtain ⟨_, _, hgen, houts⟩ := (funcOkB_iff st f').mp (hfn f' hf')
  obtain ⟨hol, hoc⟩ := houts o ho'
  have hnode := hn (nodeAt st o) (nodeAt_mem st o hol)
  have hogen : (nodeAt st o).generation = (funcAt st f').generation + 1 :=
    ((creatorOkB_some_iff st _ f' hoc).mp hnode).2
  obtain ⟨_, _, hgenf, _⟩ := (funcOkB_iff st f).mp (hfn f hf)
  have : (nodeAt st o).generation ≤ (funcAt st f).generation := by
    rw [hgenf]
    exact gen_le_genMax st _ o hoi
  omega

theorem nodeAt_setNode_ne (st : St) (x i : NodeId) (n : Node) (h : i ≠ x) :
    nodeAt (setNode st x n) i = nodeAt st i := by
  unfold nodeAt setNode
  exact getD_set_ne _ _ _ _ _ fun he => h he.symm

theorem GradOnly_setNode' (st : St) (x : NodeId) (n : Node)
    (hc : n.creator = (nodeAt st x).creator)
    (hg : n.generation = (nodeAt st x).generation) :
    GradOnly st (setNode st x n) := by
  refine ⟨rfl, setNode_nodes_len st x _, fun i => ?_⟩
  by_cases hx : i = x
  · subst hx
    by_cases hlen : i < st.nodes.length
    · rw [nodeAt_setNode_self st i _ hlen]
      exact ⟨hc, hg⟩
    · have hle := Nat.le_of_not_lt hlen
      show ((nodeAt (setNode st i _) i).creator = _) ∧ _
      unfold nodeAt setNode
      rw [getD_oob _ _ _ (by simpa using hle), getD_oob _ _ _ hle]
      exact ⟨rfl, rfl⟩
  · rw [nodeAt_setNode_ne st x i _ hx]
    exact ⟨rfl, rfl⟩

theorem wlSortedB_setNode (st : St) (x : NodeId) (n : Node) (l : List FuncId) :
    wlSortedB (setNode st x n) l = wlSortedB st l :=
  wlSortedB_congr st (setNode st x n) rfl l

theorem addFunc_setNode (st : St) (x : NodeId) (n : Node) (c : FuncId) (wl seen : List FuncId) :
    addFunc (setNode st x n) c wl seen = addFunc st c wl seen :=
  addFunc_congr st (setNode st x n) rfl c wl seen

theorem addFunc_self (st : St) (c : FuncId) (wl seen : List FuncId) :
    c ∈ (addFunc st c wl seen).1 ∨ c ∈ seen := by
  unfold addFunc
  by_cases hc : c ∈ seen
  · exact Or.inr hc
  · rw [if_neg hc]
    exact Or.inl (mem_wlInsert_self st c wl)

/-- Everything the accumulation loop does in one pass, as one specification:
it only rewrites gradients; the worklist and seen set only grow; every new
worklist entry is the creator of one of the touched nodes; the seen set stays
inside the old seen set plus the worklist; descending sortedness is preserved;
untouched nodes are unchanged; a present gradient never becomes absent; and a
node whose gradient is present afterwards either already had one or had its
creator enqueued (worklist or seen set). -/
theorem accumPairs_spec :
    ∀ (pairs : List (NodeId × Option ℚ)) (st : St) (wl seen : List FuncId)
      (st1 : St) (wl1 seen1 : List FuncId),
      accumPairs st wl seen pairs = .ok (st1, wl1, seen1) →
      GradOnly st st1 ∧
      (∀ g ∈ wl, g ∈ wl1) ∧
      (∀ c ∈ seen, c ∈ seen1) ∧
      (∀ g ∈ wl1, g ∈ wl ∨ ∃ p ∈ pairs, (nodeAt st p.1).creator = some g) ∧
      (∀ c ∈ seen1, c ∈ seen ∨ c ∈ wl1) ∧
      (wlSortedB st wl = true → wlSortedB st wl1 = true) ∧
      (∀ i, ¬ i ∈ pairs.map Prod.fst → nodeAt st1 i = nodeAt st i) ∧
      (∀ i, (nodeAt st i).grad ≠ none → (nodeAt st1 i).grad ≠ none) ∧
      (∀ i c, (nodeAt st i).creator = some c → (nodeAt st1 i).grad ≠ none →
        (nodeAt st i).grad ≠ none ∨ c ∈ wl1 ∨ c ∈ seen1) := by
  intro pairs
  induction pairs with
  | nil =>
    intro st wl seen st1 wl1 seen1 h
    simp only [accumPairs] at h
    obtain ⟨rfl, rfl, rfl⟩ := by simpa using h
    exact ⟨GradOnly_refl st, fun g hg => hg, fun c hc => hc,
           fun g hg => Or.inl hg, fun c hc => Or.inl hc, fun hs => hs,
           fun i _ => rfl, fun i hg => hg, fun i c _ hg => Or.inl hg⟩
  | cons p rest ih =>
    obtain ⟨x, gx⟩ := p
    intro st wl seen st1 wl1 seen1 h
    cases hgrad : (nodeAt st x).grad with
    | some g0 =>
      have hxlen : x < st.nodes.length := by
        by_contra hx
        have hd : nodeAt st x = dfltNode := by
          unfold nodeAt
          exact getD_oob _ _ _ (Nat.le_of_not_lt hx)
        rw [hd] at hgrad
        simp [dfltNode] at hgrad
      cases gx with
      | none => simp [accumPairs, hgrad] at h
      | some v =>
        cases hcr : (nodeAt st x).creator with
        | none =>
          simp only [accumPairs, hgrad, hcr] at h
          have hgo2 : GradOnly st (setNode st x
              { data := (nodeAt st x).data, grad := some (g0 + v), creator := none,
                generation := (nodeAt st x).generation }) :=
            GradOnly_setNode' st x _ (by rw [hcr]) rfl
          obtain ⟨S1, S2, S3, S4, S5, S6, S7, S8, S9⟩ := ih _ _ _ _ _ _ h
          have hcrp := fun j => (hgo2.2.2 j).1
          have hframe : ∀ j, j ≠ x → nodeAt (setNode st x
              { data := (nodeAt st x).data, grad := some (g0 + v), creator := none,
                generation := (nodeAt st x).generation }) j = nodeAt st j :=
            fun j hj => nodeAt_setNode_ne st x j _ hj
          have hself := nodeAt_setNode_self st x
            { data := (nodeAt st x).data, grad := some (g0 + v), creator := none,
              generation := (nodeAt st x).generation } hxlen
          refine ⟨GradOnly_trans hgo2 S1, S2, S3, ?_, S5, ?_, ?_, ?_, ?_⟩
          · intro g hg
            rcases S4 g hg with hw | ⟨q, hq, hqc⟩
            · exact Or.inl hw
            · refine Or.inr ⟨q, List.mem_cons_of_mem _ hq, ?_⟩
              rw [← hcrp q.1]
              exact hqc
          · intro hs
            have h4 := S6 (by rw [wlSortedB_setNode]; exact hs)
            rw [wlSortedB_setNode] at h4
            exact h4
          · intro i hi
            have hix : i ≠ x := fun he => hi (by rw [List.map_cons]; exact he ▸ List.mem_cons_self _ _)
            have hirest : ¬ i ∈ rest.map Prod.fst :=
              fun hm => hi (by rw [List.map_cons]; exact List.mem_cons_of_mem _ hm)
            rw [S7 i hirest, hframe i hix]
          · intro i hgr
            by_cases hix : i = x
            · subst hix
              apply S8
              rw [hself]
              simp
            · apply S8
              rw [hframe i hix]
              exact hgr
          · intro i c' hcr' hgr1
            by_cases hix : i = x
            · subst hix
              exact Or.inl (by rw [hgrad]; simp)
            · have h5 := S9 i c' (by rw [hcrp i]; exact hcr') hgr1
              rcases h5 with hg2 | h6
              · exact Or.inl (by rw [← hframe i hix]; exact hg2)
              · exact Or.inr h6
        | some c =>
          simp only [accumPairs, hgrad, hcr] at h
          rw [addFunc_setNode] at h
          have hgo2 : GradOnly st (setNode st x
              { data := (nodeAt st x).data, grad := some (g0 + v), creator := some c,
                generation := (nodeAt st x).generation }) :=
            GradOnly_setNode' st x _ (by rw [hcr]) rfl
          obtain ⟨S1, S2, S3, S4, S5, S6, S7, S8, S9⟩ := ih _ _ _ _ _ _ h
          have hcrp := fun j => (hgo2.2.2 j).1
          have hframe : ∀ j, j ≠ x → nodeAt (setNode st x
              { data := (nodeAt st x).data, grad := some (g0 + v), creator := some c,
                generation := (nodeAt st x).generation }) j = nodeAt st j :=
            fun j hj => nodeAt_setNode_ne st x j _ hj
          have hself := nodeAt_setNode_self st x
            { data := (nodeAt st x).data, grad := some (g0 + v), creator := some c,
              generation := (nodeAt st x).generation } hxlen
          refine ⟨GradOnly_trans hgo2 S1, ?_, ?_, ?_, ?_, ?_, ?_, ?_, ?_⟩
          · intro g hg
            exact S2 g (addFunc_wl_mono st c wl seen g hg)
          · intro c' hc'
            exact S3 c' (addFunc_seen_mono st c wl seen c' hc')
          · intro g hg
            rcases S4 g hg with hw | ⟨q, hq, hqc⟩
            · rcases addFunc_wl_sub st c wl seen g hw with rfl | hw'
              · exact Or.inr ⟨(x, some v), List.mem_cons_self _ _, hcr⟩
              · exact Or.inl hw'
            · refine Or.inr ⟨q, List.mem_cons_of_mem _ hq, ?_⟩
              rw [← hcrp q.1]
              exact hqc
          · intro c' hc'
            rcases S5 c' hc' with hs | hw
            · rcases addFunc_seen_sub st c wl seen c' hs with rfl | hs'
              · rcases addFunc_self st c' wl seen with h1 | h1
                · exact Or.inr (S2 c' h1)
                · exact Or.inl h1
              · exact Or.inl hs'
            · exact Or.inr hw
          · intro hs
            have h2 : wlSortedB st (addFunc st c wl seen).1 = true :=
              addFunc_sorted st c wl seen hs
            have h4 := S6 (by rw [wlSortedB_setNode]; exact h2)
            rw [wlSortedB_setNode] at h4
            exact h4
          · intro i hi
            have hix : i ≠ x := fun he => hi (by rw [List.map_cons]; exact he ▸ List.mem_cons_self _ _)
            have hirest : ¬ i ∈ rest.map Prod.fst :=
              fun hm => hi (by rw [List.map_cons]; exact List.mem_cons_of_mem _ hm)
            rw [S7 i hirest, hframe i hix]
          · intro i hgr
            by_cases hix : i = x
            · subst hix
              apply S8
              rw [hself]
              simp
            · apply S8
              rw [hframe i hix]
              exact hgr
          · intro i c' hcr' hgr1
            by_cases hix : i = x
            · subst hix
              exact Or.inl (by rw [hgrad]; simp)
            · have h5 := S9 i c' (by rw [hcrp i]; exact hcr') hgr1
              rcases h5 with hg2 | h6
              · exact Or.inl (by rw [← hframe i hix]; exact hg2)
              · exact Or.inr h6
    | none =>
      cases hcr : (nodeAt st x).creator with
      | none =>
        simp only [accumPairs, hgrad, hcr] at h
        have hgo2 : GradOnly st (setNode st x
            { data := (nodeAt st x).data, grad := gx, creator := none,
              generation := (nodeAt st x).generation }) :=
          GradOnly_setNode' st x _ (by rw [hcr]) rfl
        obtain ⟨S1, S2, S3, S4, S5, S6, S7, S8, S9⟩ := ih _ _ _ _ _ _ h
        have hcrp := fun j => (hgo2.2.2 j).1
        have hframe : ∀ j, j ≠ x → nodeAt (setNode st x
            { data := (nodeAt st x).data, grad := gx, creator := none,
              generation := (nodeAt st x).generation }) j = nodeAt st j :=
          fun j hj => nodeAt_setNode_ne st x j _ hj
        refine ⟨GradOnly_trans hgo2 S1, S2, S3, ?_, S5, ?_, ?_, ?_, ?_⟩
        · intro g hg
          rcases S4 g hg with hw | ⟨q, hq, hqc⟩
          · exact Or.inl hw
          · refine Or.inr ⟨q, List.mem_cons_of_mem _ hq, ?_⟩
            rw [← hcrp q.1]
            exact hqc
        · intro hs
          have h4 := S6 (by rw [wlSortedB_setNode]; exact hs)
          rw [wlSortedB_setNode] at h4
          exact h4
        · intro i hi
          have hix : i ≠ x := fun he => hi (by rw [List.map_cons]; exact he ▸ List.mem_cons_self _ _)
          have hirest : ¬ i ∈ rest.map Prod.fst :=
            fun hm => hi (by rw [List.map_cons]; exact List.mem_cons_of_mem _ hm)
          rw [S7 i hirest, hframe i hix]
        · intro i hgr
          by_cases hix : i = x
          · subst hix
            exact absurd hgrad hgr
          · apply S8
            rw [hframe i hix]
            exact hgr
        · intro i c' hcr' hgr1
          by_cases hix : i = x
          · subst hix
            rw [hcr] at hcr'
            cases hcr'
          · have h5 := S9 i c' (by rw [hcrp i]; exact hcr') hgr1
            rcases h5 with hg2 | h6
            · exact Or.inl (by rw [← hframe i hix]; exact hg2)
            · exact Or.inr h6
      | some c =>
        simp only [accumPairs, hgrad, hcr] at h
        rw [addFunc_setNode] at h
        have hgo2 : GradOnly st (setNode st x
            { data := (nodeAt st x).data, grad := gx, creator := some c,
              generation := (nodeAt st x).generation }) :=
          GradOnly_setNode' st x _ (by rw [hcr]) rfl
        obtain ⟨S1, S2, S3, S4, S5, S6, S7, S8, S9⟩ := ih _ _ _ _ _ _ h
        have hcrp := fun j => (hgo2.2.2 j).1
        have hframe : ∀ j, j ≠ x → nodeAt (setNode st x
            { data := (nodeAt st x).data, grad := gx, creator := some c,
              generation := (nodeAt st x).generation }) j = nodeAt st j :=
          fun j hj => nodeAt_setNode_ne st x j _ hj
        refine ⟨GradOnly_trans hgo2 S1, ?_, ?_, ?_, ?_, ?_, ?_, ?_, ?_⟩
        · intro g hg
          exact S2 g (addFunc_wl_mono st c wl seen g hg)
        · intro c' hc'
          exact S3 c' (addFunc_seen_mono st c wl seen c' hc')
        · intro g hg
          rcases S4 g hg with hw | ⟨q, hq, hqc⟩
          · rcases addFunc_wl_sub st c wl seen g hw with rfl | hw'
            · exact Or.inr ⟨(x, gx), List.mem_cons_self _ _, hcr⟩
            · exact Or.inl hw'
          · refine Or.inr ⟨q, List.mem_cons_of_mem _ hq, ?_⟩
            rw [← hcrp q.1]
            exact hqc
        · intro c' hc'
          rcases S5 c' hc' with hs | hw
          · rcases addFunc_seen_sub st c wl seen c' hs with rfl | hs'
            · rcases addFunc_self st c' wl seen with h1 | h1
              · exact Or.inr (S2 c' h1)
              · exact Or.inl h1
            · exact Or.inl hs'
          · exact Or.inr hw
        · intro hs
          have h2 : wlSortedB st (addFunc st c wl seen).1 = true :=
            addFunc_sorted st c wl seen hs
          have h4 := S6 (by rw [wlSortedB_setNode]; exact h2)
          rw [wlSortedB_setNode] at h4
          exact h4
        · intro i hi
          have hix : i ≠ x := fun he => hi (by rw [List.map_cons]; exact he ▸ List.mem_cons_self _ _)
          have hirest : ¬ i ∈ rest.map Prod.fst :=
            fun hm => hi (by rw [List.map_cons]; exact List.mem_cons_of_mem _ hm)
          rw [S7 i hirest, hframe i hix]
        · intro i hgr
          by_cases hix : i = x
          · subst hix
            exact absurd hgrad hgr
          · apply S8
            rw [hframe i hix]
            exact hgr
        · intro i c' hcr' hgr1
          by_cases hix : i = x
          · subst hix
            have hcc : c' = c := by
              rw [hcr] at hcr'
              exact (Option.some.inj hcr').symm
            subst hcc
            exact Or.inr (Or.inr (S3 c' (addFunc_c_seen st c' wl seen)))
          · have h5 := S9 i c' (by rw [hcrp i]; exact hcr') hgr1
            rcases h5 with hg2 | h6
            · exact Or.inl (by rw [← hframe i hix]; exact hg2)
            · exact Or.inr h6

/-- Leaf retention: a creator-less node whose gradient is present at any point
of the traversal still has a present gradient when the loop finishes — the
accumulation only sets or adds, and the clearing step only touches outputs of
processed operations, which in a well-formed graph always have creators. -/
theorem backwardLoop_leaf_keep :
    ∀ (fuel : Nat) (st : St) (wl seen : List FuncId) (st' : St),
      WF st → (∀ g ∈ wl, g < st.funcs.length) →
      backwardLoop false fuel st wl seen = .ok st' →
      ∀ i, (nodeAt st i).creator = none → (nodeAt st i).grad ≠ none →
        (nodeAt st' i).grad ≠ none := by
  intro fuel
  induction fuel with
  | zero =>
    intro st wl seen st' hwf hrange hrun i hcrn hg
    cases wl with
    | nil =>
      simp only [backwardLoop] at hrun
      obtain rfl := by simpa using hrun
      exact hg
    | cons f rest => simp [backwardLoop] at hrun
  | succ fuel ih =>
    intro st wl seen st' hwf hrange hrun i hcrn hg
    cases wl with
    | nil =>
      simp only [backwardLoop] at hrun
      obtain rfl := by simpa using hrun
      exact hg
    | cons f rest =>
      simp only [backwardLoop] at hrun
      cases hbr : FKind.backwardRule (funcAt st f).kind
          ((funcAt st f).outputs.map fun o => (nodeAt st o).grad)
          ((funcAt st f).inputs.map fun j => (nodeAt st j).data) with
      | error e =>
        rw [hbr] at hrun
        exact Except.noConfusion hrun
      | ok gxs =>
        simp only [hbr] at hrun
        cases hacc : accumPairs st rest seen ((funcAt st f).inputs.zip gxs) with
        | error e =>
          rw [hacc] at hrun
          exact Except.noConfusion hrun
        | ok r =>
          obtain ⟨st1, wl2, seen2⟩ := r
          simp only [hacc, Bool.false_eq_true, if_false] at hrun
          obtain ⟨S1, S2, S3, S4, S5, S6, S7, S8, S9⟩ := accumPairs_spec _ _ _ _ _ _ _ hacc
          have hflt : f < st.funcs.length := hrange f (List.mem_cons_self f rest)
          obtain ⟨hn, hbl, hfn⟩ := (wf_iff st).mp hwf
          obtain ⟨hneI, hinr, hgenf, houts⟩ := (funcOkB_iff st f).mp (hfn f hflt)
          have hgo2 : GradOnly st (clearGrads st1 (funcAt st f).outputs) :=
            GradOnly_trans S1 (GradOnly_clearGrads _ st1)
          have hwf2 : WF (clearGrads st1 (funcAt st f).outputs) :=
            WF_gradOnly st _ hgo2 hwf
          have hq1mem : ∀ q ∈ (funcAt st f).inputs.zip gxs, q.1 ∈ (funcAt st f).inputs := by
            intro q hq
            obtain ⟨a, b⟩ := q
            exact (List.of_mem_zip hq).1
          have hr2 : ∀ g ∈ wl2, g < (clearGrads st1 (funcAt st f).outputs).funcs.length := by
            intro g hgm
            rw [show (clearGrads st1 (funcAt st f).outputs).funcs.length = st.funcs.length from
              congrArg List.length hgo2.1]
            rcases S4 g hgm with hw | ⟨q, hq, hqc⟩
            · exact hrange g (List.mem_cons_of_mem f hw)
            · have hq1len : q.1 < st.nodes.length := hinr _ (hq1mem q hq)
              exact ((creatorOkB_some_iff st _ g hqc).mp (hn _ (nodeAt_mem st q.1 hq1len))).1
          have hcr2 : (nodeAt (clearGrads st1 (funcAt st f).outputs) i).creator = none := by
            rw [(hgo2.2.2 i).1]
            exact hcrn
          have hnotout : i ∉ (funcAt st f).outputs := by
            intro hmem
            have hc := (houts i hmem).2
            rw [hcrn] at hc
            cases hc
          have hg2 : (nodeAt (clearGrads st1 (funcAt st f).outputs) i).grad ≠ none := by
            rw [clearGrads_frame _ st1 i hnotout]
            exact S8 i hg
          exact ih _ _ _ _ hwf2 hr2 hrun i hcr2 hg2

/-- The central clearing invariant of the scheduler's `retain_grad=False`
mode: starting from a state where every gradient-bearing non-leaf node has its
creator either already processed (with outputs cleared) or still in the
(descending-sorted) worklist, a successful run finishes with EVERY node that
has a creator holding an absent gradient.  The argument: pops happen in
non-increasing generation order, so no processed operation's output can ever
be re-accumulated (a consumer has strictly greater generation, but all later
pops have smaller-or-equal generations), and each operation's outputs are
cleared exactly at its own processing. -/
theorem backwardLoop_clears :
    ∀ (fuel : Nat) (st : St) (wl seen done : List FuncId) (st' : St),
      WF st →
      (∀ g ∈ wl, g < st.funcs.length) →
      (∀ f ∈ done, f < st.funcs.length) →
      wlSortedB st wl = true →
      (∀ f ∈ done, ∀ g ∈ wl, (funcAt st g).generation ≤ (funcAt st f).generation) →
      (∀ f ∈ done, ∀ o ∈ (funcAt st f).outputs, (nodeAt st o).grad = none) →
      (∀ c ∈ seen, c ∈ done ∨ c ∈ wl) →
      (∀ i c, (nodeAt st i).creator = some c → (nodeAt st i).grad ≠ none →
        c ∈ done ∨ c ∈ wl) →
      backwardLoop false fuel st wl seen = .ok st' →
      GradOnly st st' ∧
      (∀ i c, (nodeAt st' i).creator = some c → (nodeAt st' i).grad = none) := by
  intro fuel
  induction fuel with
  | zero =>
    intro st wl seen done st' hwf hrw hrd hsort hdom hclr hseen hinv hrun
    cases wl with
    | nil =>
      simp only [backwardLoop] at hrun
      obtain rfl := by simpa using hrun
      refine ⟨GradOnly_refl st, ?_⟩
      intro i c hcr
      by_cases hg : (nodeAt st i).grad = none
      · exact hg
      · rcases hinv i c hcr hg with hcd | hcw
        · have hilen : i < st.nodes.length := by
            by_contra hx
            have hd : nodeAt st i = dfltNode := by
              unfold nodeAt
              exact getD_oob _ _ _ (Nat.le_of_not_lt hx)
            rw [hd] at hcr
            simp [dfltNode] at hcr
          obtain ⟨hn, hbl, hfn⟩ := (wf_iff st).mp hwf
          have hb := hbl i hilen
          unfold backLinkB at hb
          rw [hcr] at hb
          have hb' : decide (i ∈ (funcAt st c).outputs) = true := hb
          exact absurd (hclr c hcd i (of_decide_eq_true hb')) hg
        · cases hcw
    | cons f rest => simp [backwardLoop] at hrun
  | succ fuel ih =>
    intro st wl seen done st' hwf hrw hrd hsort hdom hclr hseen hinv hrun
    cases wl with
    | nil =>
      simp only [backwardLoop] at hrun
      obtain rfl := by simpa using hrun
      refine ⟨GradOnly_refl st, ?_⟩
      intro i c hcr
      by_cases hg : (nodeAt st i).grad = none
      · exact hg
      · rcases hinv i c hcr hg with hcd | hcw
        · have hilen : i < st.nodes.length := by
            by_contra hx
            have hd : nodeAt st i = dfltNode := by
              unfold nodeAt
              exact getD_oob _ _ _ (Nat.le_of_not_lt hx)
            rw [hd] at hcr
            simp [dfltNode] at hcr
          obtain ⟨hn, hbl, hfn⟩ := (wf_iff st).mp hwf
          have hb := hbl i hilen
          unfold backLinkB at hb
          rw [hcr] at hb
          have hb' : decide (i ∈ (funcAt st c).outputs) = true := hb
          exact absurd (hclr c hcd i (of_decide_eq_true hb')) hg
        · cases hcw
    | cons f rest =>
      simp only [backwardLoop] at hrun
      cases hbr : FKind.backwardRule (funcAt st f).kind
          ((funcAt st f).outputs.map fun o => (nodeAt st o).grad)
          ((funcAt st f).inputs.map fun j => (nodeAt st j).data) with
      | error e =>
        rw [hbr] at hrun
        exact Except.noConfusion hrun
      | ok gxs =>
        simp only [hbr] at hrun
        cases hacc : accumPairs st rest seen ((funcAt st f).inputs.zip gxs) with
        | error e =>
          rw [hacc] at hrun
          exact Except.noConfusion hrun
        | ok r =>
          obtain ⟨st1, wl2, seen2⟩ := r
          simp only [hacc, Bool.false_eq_true, if_false] at hrun
          obtain ⟨S1, S2, S3, S4, S5, S6, S7, S8, S9⟩ := accumPairs_spec _ _ _ _ _ _ _ hacc
          have hflt : f < st.funcs.length := hrw f (List.mem_cons_self f rest)
          obtain ⟨hn, hbl, hfn⟩ := (wf_iff st).mp hwf
          obtain ⟨hneI, hinr, hgenf, houts⟩ := (funcOkB_iff st f).mp (hfn f hflt)
          have hgo2 : GradOnly st (clearGrads st1 (funcAt st f).outputs) :=
            GradOnly_trans S1 (GradOnly_clearGrads _ st1)
          have hcreq : ∀ j, (nodeAt (clearGrads st1 (funcAt st f).outputs) j).creator
              = (nodeAt st j).creator := fun j => (hgo2.2.2 j).1
          have hfeq : (clearGrads st1 (funcAt st f).outputs).funcs = st.funcs := hgo2.1
          have hfaeq : ∀ g, funcAt (clearGrads st1 (funcAt st f).outputs) g = funcAt st g :=
            funcAt_ext st _ hfeq
          have hwf2 : WF (clearGrads st1 (funcAt st f).outputs) :=
            WF_gradOnly st _ hgo2 hwf
          have hq1mem : ∀ q ∈ (funcAt st f).inputs.zip gxs, q.1 ∈ (funcAt st f).inputs := by
            intro q hq
            obtain ⟨a, b⟩ := q
            exact (List.of_mem_zip hq).1
          have hinserted : ∀ g ∈ wl2, g ∈ rest ∨
              ∃ xn, xn ∈ (funcAt st f).inputs ∧ (nodeAt st xn).creator = some g := by
            intro g hg
            rcases S4 g hg with hw | ⟨q, hq, hqc⟩
            · exact Or.inl hw
            · exact Or.inr ⟨q.1, hq1mem q hq, hqc⟩
          have hins_range : ∀ g ∈ wl2, g < st.funcs.length := by
            intro g hg
            rcases hinserted g hg with hw | ⟨xn, hxn, hxc⟩
            · exact hrw g (List.mem_cons_of_mem f hw)
            · have hxlen := hinr xn hxn
              exact ((creatorOkB_some_iff st _ g hxc).mp (hn _ (nodeAt_mem st xn hxlen))).1
          have hins_gen : ∀ g ∈ wl2,
              (funcAt st g).generation ≤ (funcAt st f).generation := by
            intro g hg
            rcases hinserted g hg with hw | ⟨xn, hxn, hxc⟩
            · exact wlSortedB_head_max st rest f hsort g hw
            · have hxlen := hinr xn hxn
              have hxg : (nodeAt st xn).generation = (funcAt st g).generation + 1 :=
                ((creatorOkB_some_iff st _ g hxc).mp (hn _ (nodeAt_mem st xn hxlen))).2
              have hle : (nodeAt st xn).generation ≤ genMax st (funcAt st f).inputs :=
                gen_le_genMax st _ xn hxn
              rw [hgenf]
              omega
          have hdone_frame : ∀ f' ∈ done, ∀ o ∈ (funcAt st f').outputs,
              (nodeAt (clearGrads st1 (funcAt st f).outputs) o).grad = none := by
            intro f' hf' o ho
            have hgnone : (nodeAt st o).grad = none := hclr f' hf' o ho
            have hnt : ¬ o ∈ ((funcAt st f).inputs.zip gxs).map Prod.fst := by
              intro hmem
              obtain ⟨q, hq, hq1⟩ := List.mem_map.mp hmem
              have hoin : o ∈ (funcAt st f).inputs := hq1 ▸ hq1mem q hq
              have hfe : Feeds st f' f := ⟨o, ho, hoin⟩
              have hlt := feeds_gen_lt st f f' hwf hflt (hrd f' hf') hfe
              have hge := hdom f' hf' f (List.mem_cons_self f rest)
              omega
            by_cases hof : o ∈ (funcAt st f).outputs
            · obtain ⟨_, _, _, houts'⟩ := (funcOkB_iff st f').mp (hfn f' (hrd f' hf'))
              have holen : o < st1.nodes.length := by
                rw [S1.2.1]
                exact (houts' o ho).1
              exact clearGrads_grad _ st1 o hof holen
            · rw [clearGrads_frame _ st1 o hof, S7 o hnt]
              exact hgnone
          have hrw2 : ∀ g ∈ wl2, g < (clearGrads st1 (funcAt st f).outputs).funcs.length := by
            intro g hg
            rw [show (clearGrads st1 (funcAt st f).outputs).funcs.length = st.funcs.length from
              congrArg List.length hfeq]
            exact hins_range g hg
          have hrd2 : ∀ f' ∈ f :: done,
              f' < (clearGrads st1 (funcAt st f).outputs).funcs.length := by
            intro f' hf'
            rw [show (clearGrads st1 (funcAt st f).outputs).funcs.length = st.funcs.length from
              congrArg List.length hfeq]
            rcases List.mem_cons.mp hf' with rfl | h'
            · exact hflt
            · exact hrd f' h'
          have hsort2 : wlSortedB (clearGrads st1 (funcAt st f).outputs) wl2 = true := by
            rw [wlSortedB_congr st _ hfeq]
            exact S6 (wlSortedB_tail st f rest hsort)
          have hdom2 : ∀ f' ∈ f :: done, ∀ g ∈ wl2,
              (funcAt (clearGrads st1 (funcAt st f).outputs) g).generation
                ≤ (funcAt (clearGrads st1 (funcAt st f).outputs) f').generation := by
            intro f' hf' g hg
            rw [hfaeq g, hfaeq f']
            rcases List.mem_cons.mp hf' with rfl | h'
            · exact hins_gen g hg
            · exact le_trans (hins_gen g hg) (hdom f' h' f (List.mem_cons_self f rest))
          have hclr2 : ∀ f' ∈ f :: done,
              ∀ o ∈ (funcAt (clearGrads st1 (funcAt st f).outputs) f').outputs,
              (nodeAt (clearGrads st1 (funcAt st f).outputs) o).grad = none := by
            intro f' hf' o ho
            rw [hfaeq f'] at ho
            rcases List.mem_cons.mp hf' with rfl | h'
            · have holen : o < st1.nodes.length := by
                rw [S1.2.1]
                exact (houts o ho).1
              exact clearGrads_grad _ st1 o ho holen
            · exact hdone_frame f' h' o ho
          have hseen2 : ∀ c ∈ seen2, c ∈ f :: done ∨ c ∈ wl2 := by
            intro c hc
            rcases S5 c hc with hs | hw
            · rcases hseen c hs with hd | hw'
              · exact Or.inl (List.mem_cons_of_mem f hd)
              · rcases List.mem_cons.mp hw' with rfl | hrest
                · exact Or.inl (List.mem_cons_self _ _)
                · exact Or.inr (S2 c hrest)
            · exact Or.inr hw
          have hinv2 : ∀ i c,
              (nodeAt (clearGrads st1 (funcAt st f).outputs) i).creator = some c →
              (nodeAt (clearGrads st1 (funcAt st f).outputs) i).grad ≠ none →
              c ∈ f :: done ∨ c ∈ wl2 := by
            intro i c hcr hgr
            rw [hcreq i] at hcr
            have hgr1 : (nodeAt st1 i).grad ≠ none := clearGrads_grad_mono _ st1 i hgr
            rcases S9 i c hcr hgr1 with hold | h6
            · rcases hinv i c hcr hold with hd | hw
              · exact Or.inl (List.mem_cons_of_mem f hd)
              · rcases List.mem_cons.mp hw with rfl | hrest
                · exact Or.inl (List.mem_cons_self _ _)
                · exact Or.inr (S2 c hrest)
            · rcases h6 with hw1 | hs1
              · exact Or.inr hw1
              · exact hseen2 c hs1
          obtain ⟨hgo', hcl'⟩ := ih (clearGrads st1 (funcAt st f).outputs) wl2 seen2
            (f :: done) st' hwf2 hrw2 hrd2 hsort2 hdom2 hclr2 hseen2 hinv2 hrun
          exact ⟨GradOnly_trans hgo2 hgo', hcl'⟩

/-! The per-pair gradient update rule of the accumulation loop
(step22.py lines 93-97). -/

theorem accumPairs_fresh (st : St) (wl seen : List FuncId) (x : NodeId) (gx : Option ℚ)
    (hx : x < st.nodes.length) (h : (nodeAt st x).grad = none) :
    ∃ r, accumPairs st wl seen [(x, gx)] = .ok r ∧ (nodeAt r.1 x).grad = gx := by
  cases hc : (nodeAt st x).creator with
  | none =>
    refine ⟨(setNode st x { nodeAt st x with grad := gx }, wl, seen), ?_, ?_⟩
    · simp [accumPairs, h, hc]
    · rw [nodeAt_setNode_self st x _ hx]
  | some c =>
    refine ⟨(setNode st x { nodeAt st x with grad := gx },
             (addFunc (setNode st x { nodeAt st x with grad := gx }) c wl seen).1,
             (addFunc (setNode st x { nodeAt st x with grad := gx }) c wl seen).2), ?_, ?_⟩
    · simp [accumPairs, h, hc]
    · rw [nodeAt_setNode_self st x _ hx]

theorem accumPairs_accum (st : St) (wl seen : List FuncId) (x : NodeId) (g v : ℚ)
    (hx : x < st.nodes.length) (h : (nodeAt st x).grad = some g) :
    ∃ r, accumPairs st wl seen [(x, some v)] = .ok r ∧
      (nodeAt r.1 x).grad = some (g + v) := by
  cases hc : (nodeAt st x).creator with
  | none =>
    refine ⟨(setNode st x { nodeAt st x with grad := some (g + v) }, wl, seen), ?_, ?_⟩
    · simp [accumPairs, h, hc]
    · rw [nodeAt_setNode_self st x _ hx]
  | some c =>
    refine ⟨(setNode st x { nodeAt st x with grad := some (g + v) },
             (addFunc (setNode st x { nodeAt st x with grad := some (g + v) }) c wl seen).1,
             (addFunc (setNode st x { nodeAt st x with grad := some (g + v) }) c wl seen).2),
           ?_, ?_⟩
    · simp [accumPairs, h, hc]
    · rw [nodeAt_setNode_self st x _ hx]

/-- Every backward rule except `Add`'s performs arithmetic on the incoming
gradient and raises `TypeError` when it is absent (`None`). -/
theorem backwardRule_none (k : FKind) (xs : List ℚ) (h : k.gradArith = true) :
    FKind.backwardRule k [none] xs = .error .typeError := by
  cases k <;> simp [FKind.gradArith] at h ⊢ <;> simp [FKind.backwardRule]

/-! The claims. -/

/-- C1: for the concrete graph `a = 3, b = 2, c = 5`, `y = (a + b) * c`,
calling `y.backward()` yields `y.value == 25`, `a.gradient == 5`,
`b.gradient == 5`. -/
theorem C1_concrete_chain_rule :
    ((runBW false 4 c1St).map fun s =>
      ((nodeAt s 4).data, (nodeAt s 0).grad, (nodeAt s 1).grad))
      = some (25, some 5, some 5) := by
  norm_num [runBW, backward, backwardLoop, accumPairs, clearGrads, addFunc, wlInsert, c1St,
    c5St, newLeaf, applyF, addF, mulF, nodeAt, setNode, funcAt, stEmpty, genMax,
    FKind.forward, FKind.backwardRule]

/-- C2: during backward, a gradient pair `(x, gx)` sets `x.grad` when absent
and accumulates by addition when present (first two conjuncts, the exact rule
of step22.py lines 93-97); consequently a leaf consumed by two independent
operations (`v1 = x * a`, `v2 = x * n`, root `v1 + v2`) ends with the sum of
both paths' contributions `a + n` (third conjunct), not just the last one
computed (fourth conjunct: at `x = 1, a = 3, n = 4` the result is `7`, not the
last-computed contribution `3`). -/
theorem C2_fanout_accumulation :
    (∀ st wl seen x gx, x < st.nodes.length → (nodeAt st x).grad = none →
      ∃ r, accumPairs st wl seen [(x, gx)] = .ok r ∧ (nodeAt r.1 x).grad = gx) ∧
    (∀ st wl seen x g v, x < st.nodes.length → (nodeAt st x).grad = some g →
      ∃ r, accumPairs st wl seen [(x, some v)] = .ok r ∧
        (nodeAt r.1 x).grad = some (g + v)) ∧
    (∀ xv a n : ℚ, ((runBW false 5 (fanSt xv a n)).map fun s => (nodeAt s 0).grad)
      = some (some (a + n))) ∧
    ((runBW false 5 (fanSt 1 3 4)).map fun s => (nodeAt s 0).grad) ≠ some (some 3) := by
  refine ⟨fun st wl seen x gx hx h => accumPairs_fresh st wl seen x gx hx h,
          fun st wl seen x g v hx h => accumPairs_accum st wl seen x g v hx h, ?_, ?_⟩
  · intro xv a n
    simp [runBW, backward, backwardLoop, accumPairs, clearGrads, addFunc, wlInsert, fanSt,
      newLeaf, applyF, addF, mulF, nodeAt, setNode, funcAt, stEmpty, genMax,
      FKind.forward, FKind.backwardRule, add_comm]
  · norm_num [runBW, backward, backwardLoop, accumPairs, clearGrads, addFunc, wlInsert, fanSt,
      newLeaf, applyF, addF, mulF, nodeAt, setNode, funcAt, stEmpty, genMax,
      FKind.forward, FKind.backwardRule]

/-- C2 witness: the update rule applied at concrete states — a fresh gradient
is stored as given, a present gradient `1` accumulates an incoming `2` to
`1 + 2`. -/
theorem C2_fanout_accumulation_witness :
    (∃ r, accumPairs leafSt [] [] [(0, some 2)] = .ok r ∧ (nodeAt r.1 0).grad = some 2) ∧
    (∃ r, accumPairs seededSt [] [] [(0, some 2)] = .ok r ∧
      (nodeAt r.1 0).grad = some (1 + 2)) :=
  ⟨C2_fanout_accumulation.1 leafSt [] [] 0 (some 2) (by decide) (by decide),
   C2_fanout_accumulation.2.1 seededSt [] [] 0 1 2 (by decide) rfl⟩

/-- C3: the scheduler's worklist is kept sorted by descending generation and
the popped head dominates every waiting entry (first two conjuncts — the
tie-break, most recently inserted first among equal generations, is
deterministic because `wlInsert` is a function); and in a well-formed graph
any operation whose output feeds into an operation of generation `g` has
generation strictly below `g`, so no operation is ever processed while an
unprocessed operation feeding into it has a greater generation (third
conjunct). -/
theorem C3_generation_scheduling :
    (∀ st fid wl, wlSortedB st wl = true → wlSortedB st (wlInsert st fid wl) = true) ∧
    (∀ st f rest, wlSortedB st (f :: rest) = true →
      ∀ g ∈ rest, (funcAt st g).generation ≤ (funcAt st f).generation) ∧
    (∀ st f f', WF st → f < st.funcs.length → f' < st.funcs.length →
      Feeds st f' f → (funcAt st f').generation < (funcAt st f).generation) :=
  ⟨fun st fid wl h => wlSortedB_insert st fid wl h,
   fun st f rest h g hg => wlSortedB_head_max st rest f h g hg,
   fun st f f' hwf hf hf' hfd => feeds_gen_lt st f f' hwf hf hf' hfd⟩

/-- C3 witness: concrete instances on the `(a + b) * c` graph — inserting the
`Add` (generation 0) into a worklist holding the `Mul` (generation 1) keeps it
sorted, the head dominates, and the feeder `Add` has strictly smaller
generation than the `Mul` it feeds. -/
theorem C3_generation_scheduling_witness :
    wlSortedB c1St (wlInsert c1St 0 [1]) = true ∧
    (funcAt c1St 0).generation ≤ (funcAt c1St 1).generation ∧
    (funcAt c1St 0).generation < (funcAt c1St 1).generation :=
  ⟨C3_generation_scheduling.1 c1St 0 [1] (by decide),
   C3_generation_scheduling.2.1 c1St 1 [0] (by decide) 0 (by decide),
   C3_generation_scheduling.2.2 c1St 1 0 (by decide) (by decide) (by decide)
     ⟨3, by decide, by decide⟩⟩

/-- C4: the empty graph is well formed; creating a leaf preserves
well-formedness and yields a creator-less node of generation 0; every recorded
operation application preserves well-formedness, the new operation's
generation is the max of its inputs' generations, and the output node's
creator is the new operation with generation one greater — `generation` is a
valid topological rank on every graph built while recording is enabled. -/
theorem C4_generation_invariant :
    WF stEmpty ∧
    (∀ v st, WF st →
      WF (newLeaf v st).1 ∧
      (nodeAt (newLeaf v st).1 (newLeaf v st).2).creator = none ∧
      (nodeAt (newLeaf v st).1 (newLeaf v st).2).generation = 0) ∧
    (∀ k args st, WF st → args ≠ [] → (∀ i ∈ args, i < st.nodes.length) →
      WF (applyF true k args st).1 ∧
      (funcAt (applyF true k args st).1 st.funcs.length).generation = genMax st args ∧
      (nodeAt (applyF true k args st).1 (applyF true k args st).2).creator
        = some st.funcs.length ∧
      (nodeAt (applyF true k args st).1 (applyF true k args st).2).generation
        = genMax st args + 1) := by
  refine ⟨rfl, ?_, ?_⟩
  · intro v st h
    refine ⟨wf_newLeaf v st h, ?_, ?_⟩
    · rw [newLeaf_snd, nodeAt_newLeaf_self]
    · rw [newLeaf_snd, nodeAt_newLeaf_self]
  · intro k args st h hne hargs
    refine ⟨wf_applyF k args st h hne hargs, ?_, ?_, ?_⟩
    · rw [funcAt_applyF_true_new]
    · rw [applyF_snd, nodeAt_applyF_true_out]
    · rw [applyF_snd, nodeAt_applyF_true_out]

/-- C4 witness: leaf creation from the empty graph and a recorded `Add` on the
concrete `(a + b) * c` graph both preserve well-formedness. -/
theorem C4_generation_invariant_witness :
    WF (newLeaf 3 stEmpty).1 ∧ WF (applyF true .add [0, 1] c1St).1 :=
  ⟨(C4_generation_invariant.2.1 3 stEmpty (by decide)).1,
   (C4_generation_invariant.2.2 .add [0, 1] c1St (by decide) (by decide) (by decide)).1⟩

/-- C5 counterexample: on the concrete `(a + b) * c` graph, after
`backward(retain_grad=False)` the ROOT's gradient is absent — the root is an
output of its own (processed) creator, so the clearing step
`y().grad = None` clears it, refuting "the root node's gradient is still
present after the call". -/
theorem C5_root_grad_cleared_cex :
    ((runBW false 4 c1St).map fun s => (nodeAt s 4).grad) = some none := by
  norm_num [runBW, backward, backwardLoop, accumPairs, clearGrads, addFunc, wlInsert, c1St,
    c5St, newLeaf, applyF, addF, mulF, nodeAt, setNode, funcAt, stEmpty, genMax,
    FKind.forward, FKind.backwardRule]

/-- C5 amended, universally: for EVERY well-formed graph with no pre-existing
gradients and every root with a creator, after a successful
`backward(retain_grad=False)` (1) every node that has a creator — every
intermediate node AND the root itself — has an absent gradient, and in
particular the root's gradient is absent (the root is an output of its own
processed creator, cleared by `y().grad = None`); (2) a creator-less (leaf)
node whose gradient is present at any state of the traversal still holds a
present gradient when the loop finishes — leaves retain their computed
gradients; (3) the per-operation clearing step never touches a leaf, since in
a well-formed graph every cleared output has a creator. -/
theorem C5_clearing_amended :
    (∀ st root f0 st', WF st →
      (∀ i, i < st.nodes.length → (nodeAt st i).grad = none) →
      (nodeAt st root).creator = some f0 →
      root < st.nodes.length →
      backward false root st = .ok st' →
      (∀ i c, (nodeAt st' i).creator = some c → (nodeAt st' i).grad = none) ∧
      (nodeAt st' root).grad = none) ∧
    (∀ fuel st wl seen st', WF st → (∀ g ∈ wl, g < st.funcs.length) →
      backwardLoop false fuel st wl seen = .ok st' →
      ∀ i, (nodeAt st i).creator = none → (nodeAt st i).grad ≠ none →
        (nodeAt st' i).grad ≠ none) ∧
    (∀ st f i, WF st → f < st.funcs.length → (nodeAt st i).creator = none →
      nodeAt (clearGrads st (funcAt st f).outputs) i = nodeAt st i) := by
  refine ⟨?_, ?_, ?_⟩
  · intro st root f0 st' hwf hfresh hcr hroot hrun
    have hgr : (nodeAt st root).grad = none := hfresh root hroot
    simp only [backward, hgr, hcr, if_true] at hrun
    have hgo1 : GradOnly st (setNode st root
        { data := (nodeAt st root).data, grad := some 1, creator := some f0,
          generation := (nodeAt st root).generation }) :=
      GradOnly_setNode' st root _ (by rw [hcr]) rfl
    have hwf1 : WF (setNode st root
        { data := (nodeAt st root).data, grad := some 1, creator := some f0,
          generation := (nodeAt st root).generation }) :=
      WF_gradOnly st _ hgo1 hwf
    obtain ⟨hn, hbl, hfn⟩ := (wf_iff st).mp hwf
    have hf0 : f0 < st.funcs.length :=
      ((creatorOkB_some_iff st _ f0 hcr).mp (hn _ (nodeAt_mem st root hroot))).1
    have hrw : ∀ g ∈ [f0], g < (setNode st root
        { data := (nodeAt st root).data, grad := some 1, creator := some f0,
          generation := (nodeAt st root).generation }).funcs.length := by
      intro g hg
      rw [List.mem_singleton] at hg
      subst hg
      exact hf0
    have hinv : ∀ i c, (nodeAt (setNode st root
        { data := (nodeAt st root).data, grad := some 1, creator := some f0,
          generation := (nodeAt st root).generation }) i).creator = some c →
        (nodeAt (setNode st root
        { data := (nodeAt st root).data, grad := some 1, creator := some f0,
          generation := (nodeAt st root).generation }) i).grad ≠ none →
        c ∈ ([] : List FuncId) ∨ c ∈ [f0] := by
      intro i c hic hig
      by_cases hi : i = root
      · subst hi
        rw [(hgo1.2.2 i).1, hcr] at hic
        have : c = f0 := (Option.some.inj hic).symm
        subst this
        exact Or.inr (List.mem_singleton_self _)
      · exfalso
        apply hig
        rw [nodeAt_setNode_ne st root i _ hi]
        by_cases hil : i < st.nodes.length
        · exact hfresh i hil
        · have hd : nodeAt st i = dfltNode := by
            unfold nodeAt
            exact getD_oob _ _ _ (Nat.le_of_not_lt hil)
          rw [hd]
          rfl
    obtain ⟨hgo', hcl'⟩ := backwardLoop_clears _ _ [f0] [f0] [] st' hwf1 hrw
      (fun f hf => absurd hf (List.not_mem_nil f)) rfl
      (fun f hf => absurd hf (List.not_mem_nil f))
      (fun f hf => absurd hf (List.not_mem_nil f))
      (fun c hc => Or.inr hc) hinv hrun
    refine ⟨hcl', ?_⟩
    apply hcl' root f0
    rw [(hgo'.2.2 root).1, (hgo1.2.2 root).1]
    exact hcr
  · exact fun fuel st wl seen st' hwf hr hrun =>
      backwardLoop_leaf_keep fuel st wl seen st' hwf hr hrun
  · intro st f i hwf hflt hcr
    apply clearGrads_frame
    intro hmem
    obtain ⟨hn, hbl, hfn⟩ := (wf_iff st).mp hwf
    obtain ⟨_, _, _, houts⟩ := (funcOkB_iff st f).mp (hfn f hflt)
    have hc := (houts i hmem).2
    rw [hcr] at hc
    cases hc

/-- C5 amended witness: on the concrete `(3 + 2) * 5` graph the run ends in
`c5FinSt` where the intermediate (node 3) and the root (node 4) have absent
gradients; finishing the traversal from the mid-state `c5MidSt` leaves the
leaf `c` (node 2) with its gradient present; and the clearing step of the
`Mul` does not touch the leaf `a` (node 0). -/
theorem C5_clearing_amended_witness :
    (nodeAt c5FinSt 3).grad = none ∧
    (nodeAt c5FinSt 4).grad = none ∧
    (nodeAt c5MidFin 2).grad ≠ none ∧
    nodeAt (clearGrads c1St (funcAt c1St 1).outputs) 0 = nodeAt c1St 0 :=
  ⟨(C5_clearing_amended.1 c1St 4 1 c5FinSt (by decide) (by decide) (by decide) (by decide)
      (by norm_num [backward, backwardLoop, accumPairs, clearGrads, addFunc, wlInsert, c1St,
        c5St, c5FinSt, newLeaf, applyF, addF, mulF, nodeAt, setNode, funcAt, stEmpty, genMax,
        FKind.forward, FKind.backwardRule])).1 3 0 (by decide),
   (C5_clearing_amended.1 c1St 4 1 c5FinSt (by decide) (by decide) (by decide) (by decide)
      (by norm_num [backward, backwardLoop, accumPairs, clearGrads, addFunc, wlInsert, c1St,
        c5St, c5FinSt, newLeaf, applyF, addF, mulF, nodeAt, setNode, funcAt, stEmpty, genMax,
        FKind.forward, FKind.backwardRule])).2,
   C5_clearing_amended.2.1 2 c5MidSt [0] [1, 0] c5MidFin (by decide) (by decide)
      (by norm_num [backwardLoop, accumPairs, clearGrads, addFunc, wlInsert, c5MidSt, c5MidFin,
        nodeAt, setNode, funcAt, genMax, FKind.backwardRule])
      2 (by decide) (by decide),
   C5_clearing_amended.2.2 c1St 1 0 (by decide) (by decide) (by decide)⟩

/-- C6 counterexample: on a creator-less leaf `Var(2.0)`, `backward()` raises
an `AttributeError` (the worklist sort evaluates `None.generation`) instead of
terminating normally as a no-op. -/
theorem C6_leaf_backward_not_noop_cex :
    runBWErr false 0 leafSt = some .attributeError := by decide

/-- C6 amended: for every node with no creator, `backward()` raises an
`AttributeError` (after seeding the node's own gradient, Python appends `None`
to the worklist and the sort accesses `None.generation`); no gradient is
propagated to any other node. -/
theorem C6_leaf_backward_raises (st : St) (root : NodeId) (retain : Bool)
    (h : (nodeAt st root).creator = none) :
    backward retain root st = .error .attributeError := by
  simp [backward, h]

/-- C6 witness: the amended behavior at the concrete leaf. -/
theorem C6_leaf_backward_raises_witness :
    backward false 0 leafSt = .error .attributeError :=
  C6_leaf_backward_raises leafSt 0 false rfl

/-- C7 counterexample: the scheduler processes an `Add` whose single output
(node 2) has an absent gradient, yet the run completes without error and the
absent gradient propagates as absent (`None`, not zero) into both inputs —
refuting "backward fails with an error". -/
theorem C7_add_silent_cex :
    (match backwardLoop false 2 addNoGradSt [0] [0] with
     | .ok s => some ((nodeAt s 0).grad, (nodeAt s 1).grad)
     | .error _ => none) = some (none, none) := by decide

/-- C7 amended: when the scheduler pops an operation whose backward rule
performs arithmetic on the output gradient (`Mul`, `Div`, `Pow`, `Neg`,
`Sub` — every library operation except `Add`) and the operation's output lacks
a gradient, backward fails with a `TypeError` propagated to the caller; the
absent gradient is never treated as zero (`Add` merely passes the absence
through unchanged). -/
theorem C7_missing_gradient (retain : Bool) (fuel : Nat) (st : St) (f : FuncId)
    (wl seen : List FuncId) (o : NodeId)
    (hk : (funcAt st f).kind.gradArith = true)
    (ho : (funcAt st f).outputs = [o])
    (hg : (nodeAt st o).grad = none) :
    backwardLoop retain (fuel + 1) st (f :: wl) seen = .error .typeError := by
  have hrule := backwardRule_none (funcAt st f).kind
    ((funcAt st f).inputs.map fun i => (nodeAt st i).data) hk
  simp [backwardLoop, ho, hg, hrule]

/-- C7 witness: the `Mul` with a gradient-less output errors. -/
theorem C7_missing_gradient_witness :
    backwardLoop false 2 mulNoGradSt [0] [0] = .error .typeError :=
  C7_missing_gradient false 1 mulNoGradSt 0 [] [0] 2 (by decide) (by decide) (by decide)

/-- C8 counterexample: `scalar ** node` is not supported — `Var` defines no
reflected power method, so Python raises `TypeError` — refuting "in
particular, scalar ** node is supported". -/
theorem C8_rpow_unsupported_cex :
    v_rpow true 2 0 leafSt = .error .typeError := rfl

/-- C8 amended: both operand orderings of subtraction and division work with
the raw scalar auto-coerced to a constant leaf node (conjunct 6: the coerced
scalar is a creator-less generation-0 node holding the scalar), and
`node ** c` works; but `scalar ** node` raises a `TypeError` because no
reflected power method exists. -/
theorem C8_reflected_ops (st : St) (x : NodeId) (s : ℚ) (c : Int)
    (h : x < st.nodes.length) :
    outData (v_sub true x s st) = (nodeAt st x).data - s ∧
    outData (v_rsub true s x st) = s - (nodeAt st x).data ∧
    outData (v_div true x s st) = (nodeAt st x).data / s ∧
    outData (v_rdiv true s x st) = s / (nodeAt st x).data ∧
    outData (v_pow true x c st) = qpow (nodeAt st x).data c ∧
    nodeAt (v_sub true x s st).1 st.nodes.length = { data := s } ∧
    v_rpow true c x st = .error .typeError := by
  refine ⟨?_, ?_, ?_, ?_, ?_, ?_, rfl⟩
  · rw [v_sub, outData, applyF_snd, nodeAt_applyF_true_out]
    simp [FKind.forward, newLeaf_snd, nodeAt_newLeaf_lt s st x h, nodeAt_newLeaf_self]
  · rw [v_rsub, outData, applyF_snd, nodeAt_applyF_true_out]
    simp [FKind.forward, newLeaf_snd, nodeAt_newLeaf_lt s st x h, nodeAt_newLeaf_self]
  · rw [v_div, outData, applyF_snd, nodeAt_applyF_true_out]
    simp [FKind.forward, newLeaf_snd, nodeAt_newLeaf_lt s st x h, nodeAt_newLeaf_self]
  · rw [v_rdiv, outData, applyF_snd, nodeAt_applyF_true_out]
    simp [FKind.forward, newLeaf_snd, nodeAt_newLeaf_lt s st x h, nodeAt_newLeaf_self]
  · rw [v_pow, outData, applyF_snd, nodeAt_applyF_true_out]
    simp [FKind.forward]
  · rw [v_sub]
    rw [nodeAt_applyF_lt true .sub _ (newLeaf s st).1 st.nodes.length
      (by rw [newLeaf_nodes_len]; exact Nat.lt_succ_self _)]
    exact nodeAt_newLeaf_self s st

/-- C8 witness: the amended statement at a concrete graph (`x = Var(2.0)`,
scalar 3, exponent 2). -/
theorem C8_reflected_ops_witness :
    outData (v_sub true 0 3 leafSt) = (nodeAt leafSt 0).data - 3 ∧
    outData (v_rsub true 3 0 leafSt) = 3 - (nodeAt leafSt 0).data ∧
    outData (v_div true 0 3 leafSt) = (nodeAt leafSt 0).data / 3 ∧
    outData (v_rdiv true 3 0 leafSt) = 3 / (nodeAt leafSt 0).data ∧
    outData (v_pow true 0 2 leafSt) = qpow (nodeAt leafSt 0).data 2 ∧
    nodeAt (v_sub true 0 3 leafSt).1 leafSt.nodes.length = { data := 3 } ∧
    v_rpow true 2 0 leafSt = .error .typeError :=
  C8_reflected_ops leafSt 0 3 2 (by decide)

/-- C9: `x ** c` produces a node whose value is `x` raised to the power `c`
(first conjunct); the `Pow(c)` backward rule propagates
`c * x ^ (c - 1) * gy` (second conjunct); and concretely for `x = 2`,
`z = x ** 3`, `z.backward()` yields `x.gradient == 12` (third conjunct). -/
theorem C9_pow_rule (st : St) (x : NodeId) (c : Int) (_h : x < st.nodes.length) :
    outData (powF true x c st) = qpow (nodeAt st x).data c ∧
    (∀ gy xv : ℚ, FKind.backwardRule (.pow c) [some gy] [xv]
      = .ok [some ((c : ℚ) * qpow xv (c - 1) * gy)]) ∧
    ((runBW false 1 powSt).map fun s => (nodeAt s 0).grad) = some (some 12) := by
  refine ⟨?_, fun gy xv => rfl, ?_⟩
  · rw [powF, outData, applyF_snd, nodeAt_applyF_true_out]
    simp [FKind.forward]
  · have h2 : Int.toNat 2 = 2 := rfl
    norm_num [runBW, backward, backwardLoop, accumPairs, clearGrads, addFunc, wlInsert, powSt,
      leafSt, newLeaf, applyF, powF, nodeAt, setNode, funcAt, stEmpty, genMax,
      FKind.forward, FKind.backwardRule, qpow, h2]

/-- C9 witness: the power rule at the concrete `x = Var(2.0)`, `c = 3`. -/
theorem C9_pow_rule_witness :
    outData (powF true 0 3 leafSt) = qpow (nodeAt leafSt 0).data 3 ∧
    (∀ gy xv : ℚ, FKind.backwardRule (.pow 3) [some gy] [xv]
      = .ok [some ((3 : ℚ) * qpow xv (3 - 1) * gy)]) ∧
    ((runBW false 1 powSt).map fun s => (nodeAt s 0).grad) = some (some 12) :=
  C9_pow_rule leafSt 0 3 (by decide)

/-- C10: when one node is both inputs of a single `Add` (`z = x + x`),
backward accumulates both contributions within that one operation:
`x.gradient` is twice the seeded output gradient (`2 = 1 + 1`), not once. -/
theorem C10_duplicate_input (v : ℚ) :
    ((runBW false 1 (dupSt v)).map fun s => (nodeAt s 0).grad) = some (some 2) ∧
    ((runBW false 1 (dupSt v)).map fun s => (nodeAt s 0).grad) ≠ some (some 1) := by
  constructor <;>
    norm_num [runBW, backward, backwardLoop, accumPairs, clearGrads, addFunc, wlInsert, dupSt,
      newLeaf, applyF, addF, nodeAt, setNode, funcAt, stEmpty, genMax,
      FKind.forward, FKind.backwardRule]

end DL
